import Mathlib

/-!
Shallow embedding of the retrieval and citation-canonicalization pipeline of
src/Visualizer/kg-visualizer.js.

Texts are modelled as List Char (JavaScript strings).  The regex
/\[(\d+)\]/g used by extractCitations and renumberCitations is modelled by an
explicit left-to-right scanner: a candidate match starts at each literal
character LBRACKET, consumes a run of ASCII digits, and succeeds when the next
character is RBRACKET with at least one digit consumed.  This is exactly the
set of non-overlapping leftmost matches the JavaScript global regex produces,
because every match of the pattern starts with a bracket character and digits
can never start a match.

Fallible JavaScript code (a thrown TypeError from reading a property of
undefined) is modelled with Option: none is a throw.
-/

namespace KGViz

/-- Numeric value of an ASCII digit character, as parseInt sees it. -/
def digitVal (c : Char) : Nat := c.toNat - 48

/-- Value of a run of ASCII digit characters, read left to right in base 10.
This is what parseInt returns on the digits captured by the regex group. -/
def digitsVal (ds : List Char) : Nat := ds.foldl (fun a c => a * 10 + digitVal c) 0

/-- Decimal rendering of a natural number, with fuel for structural recursion
(fuel at least the number itself suffices).  Mirrors the decimal string that
JavaScript template interpolation produces for a nonnegative integer. -/
def natDigitsAux : Nat → Nat → List Char
  | 0, _ => []
  | fuel + 1, n => if n = 0 then [] else natDigitsAux fuel (n / 10) ++ [Nat.digitChar (n % 10)]

/-- Decimal rendering of a natural number, as JavaScript renders it inside
a template string. -/
def natDigits (n : Nat) : List Char := if n = 0 then ['0'] else natDigitsAux (n + 1) n

/-- Scanner state: none when outside any candidate match of the citation
pattern; some ds after an opening bracket, with ds the digits consumed so
far. -/
abbrev ScanState := Option (List Char)

/-- The loop while ((match = citationPattern.exec(answer)) !== null) of
renumberCitations (kg-visualizer.js lines 844 to 846): collect the numeric
value of every marker match, left to right, duplicates kept. -/
def scanFrom : ScanState → List Char → List Nat
  | _, [] => []
  | st, c :: cs =>
    if c = '[' then scanFrom (some []) cs
    else
      match st with
      | none => scanFrom none cs
      | some ds =>
        if c.isDigit then scanFrom (some (ds ++ [c])) cs
        else if c = ']' then
          if ds = [] then scanFrom none cs
          else digitsVal ds :: scanFrom none cs
        else scanFrom none cs

/-- All bracketed-integer markers of a text, in order of appearance with
duplicates, as the global regex scan finds them. -/
def citationsFound (answer : List Char) : List Nat := scanFrom none answer

/-- The replace callback of renumberCitations (lines 857 to 860): every
marker match LBRACKET digits RBRACKET is replaced by the bracketed decimal
rendering of f applied to its value; all other characters are copied
verbatim.  The state carries the digits of the pending candidate match,
which have not been emitted yet. -/
def replaceFrom (f : Nat → Nat) : ScanState → List Char → List Char
  | none, [] => []
  | some ds, [] => '[' :: ds
  | st, c :: cs =>
    if c = '[' then
      (match st with | none => [] | some ds => '[' :: ds) ++ replaceFrom f (some []) cs
    else
      match st with
      | none => c :: replaceFrom f none cs
      | some ds =>
        if c.isDigit then replaceFrom f (some (ds ++ [c])) cs
        else if c = ']' then
          if ds = [] then '[' :: ']' :: replaceFrom f none cs
          else ('[' :: natDigits (f (digitsVal ds)) ++ [']']) ++ replaceFrom f none cs
        else ('[' :: ds ++ [c]) ++ replaceFrom f none cs

/-- The oldToNew object of renumberCitations (lines 848 to 855), as an
association list in insertion order: the fold assigns the next unused new
number (the current size of the map plus one, matching newCounter) to each
old number on first appearance. -/
def buildMap (found : List Nat) : List (Nat × Nat) :=
  found.foldl (fun m oldNum => if (m.lookup oldNum).isSome then m else m ++ [(oldNum, m.length + 1)]) []

/-- JavaScript a || b for a possibly-undefined number a: undefined and the
number 0 are falsy. -/
def jsOr (a : Option Nat) (b : Nat) : Nat :=
  match a with
  | some v => if v = 0 then b else v
  | none => b

/-- The marker rewrite oldToNew[num] || num of the replace callback (line
859), for the map built from the markers found. -/
def renumberFn (found : List Nat) (n : Nat) : Nat := jsOr ((buildMap found).lookup n) n

/-- renumberCitations (lines 839 to 863): returns the rewritten answer text
and the old-to-new mapping. -/
def renumberCitations (answer : List Char) : List Char × List (Nat × Nat) :=
  (replaceFrom (renumberFn (citationsFound answer)) none answer, buildMap (citationsFound answer))

/-- A document of the retrieved set, as built by retrieveDocuments: content,
metadata, score and the 1-based sourceId announced to the generator. -/
structure RetrievedDoc where
  content : List Char
  metadata : List Char
  score : ℚ
  sourceId : Nat
deriving DecidableEq

/-- A citation record as built by extractCitations and reorderCitations. -/
structure Citation where
  source_id : Nat
  content : List Char
  metadata : List Char
deriving DecidableEq

/-- JavaScript array indexing with a possibly negative index: a negative
index reads a plain property, which is undefined on these arrays. -/
def jsIndex (l : List α) (i : Int) : Option α :=
  if i < 0 then none else l.get? i.toNat

/-- extractCitations (lines 815 to 837): collect the distinct cited numbers
(a Set, then Array.from and the ascending numeric sort
sort((a, b) => a - b), modelled by insertion sort, which computes the same
ascending ordering), and for each number at most the length of retrievedDocs
push a citation built from retrievedDocs[sourceNum - 1].  The JavaScript
guards only the upper bound: for the marker value 0 the access
retrievedDocs[-1] is undefined and reading doc.content throws a TypeError,
modelled as none. -/
def extractCitations (answer : List Char) (retrievedDocs : List RetrievedDoc) :
    Option (List Citation) :=
  (((citationsFound answer).dedup).insertionSort (fun a b => a ≤ b)).foldlM
    (fun citations sourceNum =>
      if sourceNum ≤ retrievedDocs.length then
        match jsIndex retrievedDocs ((sourceNum : Int) - 1) with
        | none => none
        | some doc => some (citations ++ [⟨sourceNum, doc.content, doc.metadata⟩])
      else some citations) []

/-- A JavaScript array of citation slots: new Array(n) has length n and every
slot undefined; assigning at an index at least the length grows the length;
assigning at a negative index creates a non-index property that the later
filter never sees, so it is a no-op here. -/
structure JsArr where
  size : Nat
  val : Nat → Option Citation

/-- JavaScript assignment arr[i] = c for a possibly negative i. -/
def JsArr.set (a : JsArr) (i : Int) (c : Citation) : JsArr :=
  if i < 0 then a
  else ⟨max a.size (i.toNat + 1), fun j => if j = i.toNat then some c else a.val j⟩

/-- The filter(c => c !== undefined) pass at the end of reorderCitations. -/
def JsArr.toList (a : JsArr) : List Citation := (List.range a.size).filterMap a.val

/-- One iteration of the citations.forEach loop of reorderCitations (lines
868 to 875). -/
def placeCitation (mapping : List (Nat × Nat)) (arr : JsArr) (citation : Citation) : JsArr :=
  match mapping.lookup citation.source_id with
  | some newId => arr.set ((newId : Int) - 1) { citation with source_id := newId }
  | none => arr

/-- reorderCitations (lines 865 to 878): allocate an array sized by the
number of keys of the mapping, place every citation whose old id is in the
mapping at slot newId - 1 with its source_id rewritten, and drop the
undefined slots. -/
def reorderCitations (citations : List Citation) (mapping : List (Nat × Nat)) : List Citation :=
  (citations.foldl (placeCitation mapping) ⟨mapping.length, fun _ => none⟩).toList

/-- Characters a candidate match may have buffered: only digits. -/
def AllDigits (ds : List Char) : Prop := ∀ c ∈ ds, c.isDigit = true

/-- State well-formedness: the buffered digits of a pending candidate match
are digit characters. -/
def StateDigits : ScanState → Prop
  | none => True
  | some ds => AllDigits ds

/-- Text emitted for the pending state when a new candidate match starts. -/
def flushOf : ScanState → List Char
  | none => []
  | some ds => '[' :: ds

/-- The result object of generateAnswerWithCitations (lines 808 to 812). -/
structure QueryResult where
  answer : List Char
  citations : List Citation
  rawAnswer : List Char
deriving DecidableEq

/-- The pure tail of generateAnswerWithCitations (lines 799 to 812), applied
to the raw generated answer: extraction, renumbering, reordering.  Returns
none when extractCitations throws. -/
def answerPipeline (answer : List Char) (retrievedDocs : List RetrievedDoc) :
    Option QueryResult :=
  match extractCitations answer retrievedDocs with
  | none => none
  | some citations =>
    some ⟨(renumberCitations answer).1, reorderCitations citations (renumberCitations answer).2,
      answer⟩

/-- First-appearance deduplication relative to a set of already-seen
numbers: keeps the first occurrence of each number, in order. -/
def firstDedupFrom (seen : List Nat) : List Nat → List Nat
  | [] => []
  | n :: rest => if n ∈ seen then firstDedupFrom seen rest else n :: firstDedupFrom (n :: seen) rest

/-- Distinct elements of a list, in order of first appearance. -/
def firstDedup (l : List Nat) : List Nat := firstDedupFrom [] l

/-- Pair every element of a list with its position counted from k. -/
def indexedFrom (k : Nat) : List Nat → List (Nat × Nat)
  | [] => []
  | n :: rest => (n, k) :: indexedFrom (k + 1) rest

/-- Placeholder document for list reads that are in bounds whenever the
lemma using it applies. -/
def dfltDoc : RetrievedDoc := ⟨[], [], 0, 0⟩

/-- The citation extractCitations builds for the cited number n: the
document at 1-based position n of the retrieved set. -/
def mkCitationOf (docs : List RetrievedDoc) (n : Nat) : Citation :=
  ⟨n, (docs.getD (n - 1) dfltDoc).content, (docs.getD (n - 1) dfltDoc).metadata⟩

/-- The citation list extractCitations returns on a well-behaved text, in
the language of the specification: one Citation per distinct in-range cited
number, sorted ascending. -/
def specCitationList (answer : List Char) (docs : List RetrievedDoc) : List Citation :=
  (((List.range docs.length).map (· + 1)).filter (fun n => n ∈ citationsFound answer)).map
    (mkCitationOf docs)

/-- A corpus document record: content and metadata. -/
structure Doc where
  content : List Char
  metadata : List Char
deriving DecidableEq

/-- The cached embeddings payload, with the eventId that loadEmbeddings
stamps on it (line 692). -/
structure Corpus where
  eventId : List Char
  documents : List Doc
  embeddings : List (List ℚ)
deriving DecidableEq

/-- The comparator (a, b) => b.score - a.score of retrieveDocuments (line
711), acting on (index, score) pairs.  ECMAScript sort is stable, so the
effective total order is: strictly higher score first, and on equal scores
the original (lower) index first; since the indices of the candidate pairs
are pairwise distinct, sorting by this boolean relation is exactly the
stable descending sort the source performs. -/
def byScoreDesc (p q : Nat × ℚ) : Bool :=
  decide (q.2 < p.2) || (decide (p.2 = q.2) && decide (p.1 ≤ q.1))

/-- The final map of retrieveDocuments (lines 715 to 720): build the
returned records from the ranked indices, with 1-based sourceId. -/
def buildRetrieved (documents : List Doc) (scores : List ℚ) : Nat → List Nat → List RetrievedDoc
  | _, [] => []
  | rank, idx :: rest =>
    ⟨(documents.getD idx ⟨[], []⟩).content, (documents.getD idx ⟨[], []⟩).metadata,
      scores.getD idx 0, rank⟩ :: buildRetrieved documents scores (rank + 1) rest

/-- The sorted candidate list of retrieveDocuments (lines 710 to 711):
indices paired with their scores, stably sorted by descending score.  The
sort is modelled by insertion sort under the total order byScoreDesc; since
the candidate indices are pairwise distinct, that order is linear on the
candidates and any stable descending sort (in particular the ECMAScript
one) produces exactly this list. -/
def sortedCandidates (scores : List ℚ) : List (Nat × ℚ) :=
  ((List.range scores.length).map (fun i => (i, scores.getD i 0))).insertionSort
    (fun p q => byScoreDesc p q = true)

/-- retrieveDocuments (lines 699 to 721).  The query embedding and
cosineSimilarity are floating point in the source; they are abstracted into
the rational-valued score function sim, applied to every row of
corpus.embeddings exactly as the source maps cosineSimilarity over the
corpus embeddings. -/
def retrieveDocuments (sim : List ℚ → List ℚ → ℚ) (queryEmbedding : List ℚ) (corpus : Corpus)
    (topK : Nat) : List RetrievedDoc :=
  buildRetrieved corpus.documents (corpus.embeddings.map (sim queryEmbedding)) 1
    (((sortedCandidates (corpus.embeddings.map (sim queryEmbedding))).take topK).map Prod.fst)

/-- The embeddings JSON payload as fetched, before an eventId is stamped on
it. -/
structure CorpusData where
  documents : List Doc
  embeddings : List (List ℚ)
deriving DecidableEq

/-- The module-level mutable state used by the query pipeline (lines 549 to
551): the lazily loaded embedder handle, the cached per-event corpus, and
the currently selected event. -/
structure AppState where
  embedderLoaded : Bool
  embeddingsData : Option Corpus
  currentEventId : Option (List Char)
deriving DecidableEq

/-- The external collaborators reached from handleCustomQuery, as oracles:
the transformers pipeline loader, the embeddings fetch, the embedding model
together with the similarity scoring it induces, and the OpenAI chat call.
The prompt template is fixed presentation text, so generate receives the
query and the retrieved documents it would be rendered from. -/
structure Collaborators where
  loadModel : Except (List Char) Unit
  loadEmbeddings : List Char → Except (List Char) CorpusData
  sim : List ℚ → List ℚ → ℚ
  embedQuery : List Char → List ℚ
  generate : List Char → List RetrievedDoc → Except (List Char) (List Char)

/-- Errors handleCustomQuery can surface, by origin. -/
inductive QueryError
  | missingApiKey
  | emptyQuery
  | noEventSelected
  | external (msg : List Char)
  | citationTypeError
deriving DecidableEq

/-- The three early returns of handleCustomQuery before any collaborator
runs (lines 624 to 637). -/
def QueryError.isValidation : QueryError → Bool
  | .missingApiKey => true
  | .emptyQuery => true
  | .noEventSelected => true
  | _ => false

/-- One call to an external collaborator. -/
inductive CollabCall
  | loadModel
  | loadCorpus (eventId : List Char)
  | embedCall
  | generateCall
deriving DecidableEq

/-- JavaScript String.prototype.trim, with Char.isWhitespace standing in
for the ECMAScript white-space set. -/
def jsTrim (s : List Char) : List Char :=
  ((s.dropWhile Char.isWhitespace).reverse.dropWhile Char.isWhitespace).reverse

/-- Everything one call of handleCustomQuery produces: the final mutable
state, the collaborator calls in order, the corpus handed to
retrieveDocuments when retrieval was reached, and the result or error. -/
structure QueryOutcome where
  state : AppState
  calls : List CollabCall
  usedCorpus : Option Corpus
  result : Except QueryError QueryResult

/-- Step 1 of handleCustomQuery (lines 648 to 652): load the embedder at
most once; when the loader throws, the handle stays unset. -/
def loadModelStep (C : Collaborators) (st : AppState) :
    AppState × List CollabCall × Except (List Char) Unit :=
  if st.embedderLoaded then (st, [], .ok ())
  else
    match C.loadModel with
    | .ok _ => ({ st with embedderLoaded := true }, [.loadModel], .ok ())
    | .error e => (st, [.loadModel], .error e)

/-- The corpus load path of step 2: fetch, stamp the current eventId on the
data, cache it. -/
def loadCorpusStep (C : Collaborators) (st : AppState) (eventId : List Char) :
    AppState × List CollabCall × Except (List Char) Corpus :=
  match C.loadEmbeddings eventId with
  | .ok cd =>
    ({ st with embeddingsData := some ⟨eventId, cd.documents, cd.embeddings⟩ },
      [.loadCorpus eventId], .ok ⟨eventId, cd.documents, cd.embeddings⟩)
  | .error e => (st, [.loadCorpus eventId], .error e)

/-- Step 2 of handleCustomQuery (lines 655 to 658): reuse the cached corpus
only when its eventId matches the currently selected event, otherwise
reload. -/
def corpusStep (C : Collaborators) (st : AppState) (eventId : List Char) :
    AppState × List CollabCall × Except (List Char) Corpus :=
  match st.embeddingsData with
  | some data =>
    if data.eventId = eventId then (st, [], .ok data) else loadCorpusStep C st eventId
  | none => loadCorpusStep C st eventId

/-- handleCustomQuery (lines 616 to 683): the three validations, then the
embedder load, the corpus load, retrieval, generation, and the citation
pipeline; the catch block surfaces the first failure. -/
def handleCustomQuery (C : Collaborators) (st : AppState) (apiKey query : List Char) :
    QueryOutcome :=
  if jsTrim apiKey = [] then ⟨st, [], none, .error .missingApiKey⟩
  else if jsTrim query = [] then ⟨st, [], none, .error .emptyQuery⟩
  else
    match st.currentEventId with
    | none => ⟨st, [], none, .error .noEventSelected⟩
    | some eventId =>
      match loadModelStep C st with
      | (st1, calls1, .error e) => ⟨st1, calls1, none, .error (.external e)⟩
      | (st1, calls1, .ok _) =>
        match corpusStep C st1 eventId with
        | (st2, calls2, .error e) => ⟨st2, calls1 ++ calls2, none, .error (.external e)⟩
        | (st2, calls2, .ok corpus) =>
          match C.generate (jsTrim query)
              (retrieveDocuments C.sim (C.embedQuery (jsTrim query)) corpus 10) with
          | .error e =>
            ⟨st2, calls1 ++ calls2 ++ [.embedCall, .generateCall], some corpus,
              .error (.external e)⟩
          | .ok answer =>
            match answerPipeline answer
                (retrieveDocuments C.sim (C.embedQuery (jsTrim query)) corpus 10) with
            | none =>
              ⟨st2, calls1 ++ calls2 ++ [.embedCall, .generateCall], some corpus,
                .error .citationTypeError⟩
            | some qr =>
              ⟨st2, calls1 ++ calls2 ++ [.embedCall, .generateCall], some corpus, .ok qr⟩

/-- The change handler of the event selector (lines 986 to 1012): the
current event id is updated before the event data fetch; the cached corpus
is reset only when that fetch succeeds (line 1007 sits after the awaits in
the try block). -/
def selectEventStep (st : AppState) (disNo : List Char) (fetchOk : Bool) : AppState :=
  if fetchOk then ⟨st.embedderLoaded, none, some disNo⟩
  else ⟨st.embedderLoaded, st.embeddingsData, some disNo⟩

/-- A user interaction relevant to the corpus cache. -/
inductive UIAction
  | select (disNo : List Char) (fetchOk : Bool)
  | ask (apiKey query : List Char)

/-- Run one interaction; a query records, for the retrieval it performs (if
any), the eventId of the corpus it used next to the id of the currently
selected event. -/
def stepUI (C : Collaborators) (st : AppState) :
    UIAction → AppState × List (List Char × List Char)
  | .select d ok => (selectEventStep st d ok, [])
  | .ask k q =>
    ((handleCustomQuery C st k q).state,
      match (handleCustomQuery C st k q).usedCorpus with
      | some corpus => [(corpus.eventId, (st.currentEventId).getD [])]
      | none => [])

/-- Run a sequence of interactions, collecting every retrieval record. -/
def runUI (C : Collaborators) : AppState → List UIAction → AppState × List (List Char × List Char)
  | st, [] => (st, [])
  | st, a :: rest =>
    let p := stepUI C st a
    let q := runUI C p.1 rest
    (q.1, p.2 ++ q.2)

/-- A decomposition unit of an answer text: a verbatim character, or a
marker match with its numeric value and its original digit characters. -/
inductive Tok
  | chr (c : Char)
  | mark (n : Nat) (ds : List Char)
deriving DecidableEq

/-- Original text of a token. -/
def Tok.rawText : Tok → List Char
  | .chr c => [c]
  | .mark _ ds => '[' :: ds ++ [']']

/-- Rewritten text of a token under a marker map: markers are re-rendered
as bracketed decimal integers, other characters are untouched. -/
def Tok.newText (f : Nat → Nat) : Tok → List Char
  | .chr c => [c]
  | .mark n _ => '[' :: natDigits (f n) ++ [']']

/-- Reassemble the original text from tokens. -/
def rebuildRaw (ts : List Tok) : List Char := (ts.map Tok.rawText).flatten

/-- Reassemble the rewritten text from tokens. -/
def rebuildNew (f : Nat → Nat) (ts : List Tok) : List Char := (ts.map (Tok.newText f)).flatten

/-- The marker values of a token list, in order. -/
def marksOf (ts : List Tok) : List Nat :=
  ts.filterMap fun t => match t with | .mark n _ => some n | .chr _ => none

/-- Tokenizer running the same left-to-right scan as the marker regex. -/
def tokenizeFrom : ScanState → List Char → List Tok
  | none, [] => []
  | some ds, [] => ('[' :: ds).map Tok.chr
  | st, c :: cs =>
    if c = '[' then
      (flushOf st).map Tok.chr ++ tokenizeFrom (some []) cs
    else
      match st with
      | none => Tok.chr c :: tokenizeFrom none cs
      | some ds =>
        if c.isDigit then tokenizeFrom (some (ds ++ [c])) cs
        else if c = ']' then
          if ds = [] then Tok.chr '[' :: Tok.chr ']' :: tokenizeFrom none cs
          else Tok.mark (digitsVal ds) ds :: tokenizeFrom none cs
        else (('[' :: ds ++ [c]).map Tok.chr) ++ tokenizeFrom none cs

/-- Token decomposition of an answer text. -/
def tokenize (answer : List Char) : List Tok := tokenizeFrom none answer

/-! Lemmas about decimal digit rendering. -/

theorem digitsVal_append_singleton (xs : List Char) (c : Char) :
    digitsVal (xs ++ [c]) = 10 * digitsVal xs + digitVal c := by
  simp [digitsVal, List.foldl_append, Nat.mul_comm]

theorem digitVal_digitChar {r : Nat} (h : r < 10) : digitVal (Nat.digitChar r) = r := by
  interval_cases r <;> decide

theorem isDigit_digitChar {r : Nat} (h : r < 10) : (Nat.digitChar r).isDigit = true := by
  interval_cases r <;> decide

theorem natDigitsAux_all_digits :
    ∀ fuel n, ∀ c ∈ natDigitsAux fuel n, c.isDigit = true := by
  intro fuel
  induction fuel with
  | zero => intro n c hc; simp [natDigitsAux] at hc
  | succ fuel ih =>
    intro n c hc
    by_cases h0 : n = 0
    · simp [natDigitsAux, h0] at hc
    · simp only [natDigitsAux, h0, if_false, List.mem_append, List.mem_singleton] at hc
      rcases hc with hc | hc
      · exact ih _ c hc
      · subst hc; exact isDigit_digitChar (Nat.mod_lt _ (by omega))

theorem natDigits_all_digits (n : Nat) : ∀ c ∈ natDigits n, c.isDigit = true := by
  intro c hc
  by_cases h0 : n = 0
  · simp [natDigits, h0] at hc; subst hc; decide
  · simp only [natDigits, h0, if_false] at hc
    exact natDigitsAux_all_digits _ _ c hc

theorem digitsVal_natDigitsAux : ∀ fuel n, n ≤ fuel → digitsVal (natDigitsAux fuel n) = n := by
  intro fuel
  induction fuel using Nat.strong_induction_on with
  | _ fuel ih =>
    intro n hn
    match fuel with
    | 0 =>
      have : n = 0 := by omega
      simp [natDigitsAux, this, digitsVal]
    | fuel + 1 =>
      by_cases h0 : n = 0
      · simp [natDigitsAux, h0, digitsVal]
      · have hdiv : n / 10 ≤ fuel := by
          have := Nat.div_lt_self (Nat.pos_of_ne_zero h0) (by omega : 1 < 10)
          omega
        simp only [natDigitsAux, h0, if_false]
        rw [digitsVal_append_singleton, ih fuel (by omega) _ hdiv,
          digitVal_digitChar (Nat.mod_lt _ (by omega))]
        omega

theorem digitsVal_natDigits (n : Nat) : digitsVal (natDigits n) = n := by
  by_cases h0 : n = 0
  · simp [natDigits, h0]; decide
  · simp only [natDigits, h0, if_false]
    exact digitsVal_natDigitsAux _ _ (Nat.le_succ n)

theorem natDigits_ne_nil (n : Nat) : natDigits n ≠ [] := by
  by_cases h0 : n = 0
  · simp [natDigits, h0]
  · simp only [natDigits, if_neg h0, natDigitsAux, if_neg h0]
    simp

theorem isDigit_ne_lbracket {c : Char} (h : c.isDigit = true) : c ≠ '[' := by
  intro hc; subst hc; simp at h

theorem isDigit_ne_rbracket {c : Char} (h : c.isDigit = true) : c ≠ ']' := by
  intro hc; subst hc; simp at h

/-! Step lemmas for the marker scanner and the marker replacer. -/

theorem scanFrom_nil (st : ScanState) : scanFrom st [] = [] := by
  cases st <;> rfl

theorem scanFrom_lbracket (st : ScanState) (cs : List Char) :
    scanFrom st ('[' :: cs) = scanFrom (some []) cs := by
  cases st <;> simp [scanFrom]

theorem scanFrom_none_cons {c : Char} (h : c ≠ '[') (cs : List Char) :
    scanFrom none (c :: cs) = scanFrom none cs := by
  simp [scanFrom, h]

theorem scanFrom_digit {c : Char} (h : c.isDigit = true) (ds cs : List Char) :
    scanFrom (some ds) (c :: cs) = scanFrom (some (ds ++ [c])) cs := by
  simp [scanFrom, isDigit_ne_lbracket h, h]

theorem scanFrom_rbracket_nil (cs : List Char) :
    scanFrom (some []) (']' :: cs) = scanFrom none cs := by
  simp [scanFrom]

theorem scanFrom_rbracket {ds : List Char} (h : ds ≠ []) (cs : List Char) :
    scanFrom (some ds) (']' :: cs) = digitsVal ds :: scanFrom none cs := by
  simp [scanFrom, h]

theorem scanFrom_other {c : Char} (h1 : c ≠ '[') (h2 : c.isDigit = false) (h3 : c ≠ ']')
    (ds cs : List Char) : scanFrom (some ds) (c :: cs) = scanFrom none cs := by
  simp [scanFrom, h1, h2, h3]

theorem scanFrom_digits_append {ds : List Char} (h : AllDigits ds) :
    ∀ (ds₀ rest : List Char), scanFrom (some ds₀) (ds ++ rest) = scanFrom (some (ds₀ ++ ds)) rest := by
  induction ds with
  | nil => intro ds₀ rest; simp
  | cons d ds ih =>
    intro ds₀ rest
    have hd : d.isDigit = true := h d (by simp)
    rw [List.cons_append, scanFrom_digit hd,
      ih (fun c hc => h c (by simp [hc])) (ds₀ ++ [d]) rest]
    simp

theorem replaceFrom_nil_none (f : Nat → Nat) : replaceFrom f none [] = [] := rfl

theorem replaceFrom_nil_some (f : Nat → Nat) (ds : List Char) :
    replaceFrom f (some ds) [] = '[' :: ds := rfl

theorem replaceFrom_lbracket (f : Nat → Nat) (st : ScanState) (cs : List Char) :
    replaceFrom f st ('[' :: cs) = flushOf st ++ replaceFrom f (some []) cs := by
  cases st <;> simp [replaceFrom, flushOf]

theorem replaceFrom_none_cons (f : Nat → Nat) {c : Char} (h : c ≠ '[') (cs : List Char) :
    replaceFrom f none (c :: cs) = c :: replaceFrom f none cs := by
  simp [replaceFrom, h]

theorem replaceFrom_digit (f : Nat → Nat) {c : Char} (h : c.isDigit = true) (ds cs : List Char) :
    replaceFrom f (some ds) (c :: cs) = replaceFrom f (some (ds ++ [c])) cs := by
  simp [replaceFrom, isDigit_ne_lbracket h, h]

theorem replaceFrom_rbracket_nil (f : Nat → Nat) (cs : List Char) :
    replaceFrom f (some []) (']' :: cs) = '[' :: ']' :: replaceFrom f none cs := by
  simp [replaceFrom]

theorem replaceFrom_rbracket (f : Nat → Nat) {ds : List Char} (h : ds ≠ []) (cs : List Char) :
    replaceFrom f (some ds) (']' :: cs) =
      ('[' :: natDigits (f (digitsVal ds)) ++ [']']) ++ replaceFrom f none cs := by
  simp [replaceFrom, h]

theorem replaceFrom_other (f : Nat → Nat) {c : Char} (h1 : c ≠ '[') (h2 : c.isDigit = false)
    (h3 : c ≠ ']') (ds cs : List Char) :
    replaceFrom f (some ds) (c :: cs) = ('[' :: ds ++ [c]) ++ replaceFrom f none cs := by
  simp [replaceFrom, h1, h2, h3]

theorem replaceFrom_digits_append (f : Nat → Nat) {ds : List Char} (h : AllDigits ds) :
    ∀ (ds₀ rest : List Char),
      replaceFrom f (some ds₀) (ds ++ rest) = replaceFrom f (some (ds₀ ++ ds)) rest := by
  induction ds with
  | nil => intro ds₀ rest; simp
  | cons d ds ih =>
    intro ds₀ rest
    have hd : d.isDigit = true := h d (by simp)
    rw [List.cons_append, replaceFrom_digit f hd,
      ih (fun c hc => h c (by simp [hc])) (ds₀ ++ [d]) rest]
    simp

theorem replaceFrom_some_head (f : Nat → Nat) :
    ∀ (cs ds : List Char), ∃ r, replaceFrom f (some ds) cs = '[' :: r := by
  intro cs
  induction cs with
  | nil => intro ds; exact ⟨ds, rfl⟩
  | cons c cs ih =>
    intro ds
    by_cases hlb : c = '['
    · subst hlb
      rw [replaceFrom_lbracket]
      exact ⟨ds ++ replaceFrom f (some []) cs, by simp [flushOf]⟩
    · by_cases hdig : c.isDigit
      · rw [replaceFrom_digit f hdig]; exact ih (ds ++ [c])
      · by_cases hrb : c = ']'
        · subst hrb
          rcases List.eq_nil_or_concat ds with h | _
          · subst h; exact ⟨']' :: replaceFrom f none cs, replaceFrom_rbracket_nil f cs⟩
          · have hne : ds ≠ [] := by rintro rfl; simp_all
            rw [replaceFrom_rbracket f hne]
            exact ⟨natDigits (f (digitsVal ds)) ++ [']'] ++ replaceFrom f none cs, by simp⟩
        · rw [replaceFrom_other f hlb (by simp [hdig]) hrb]
          exact ⟨ds ++ [c] ++ replaceFrom f none cs, by simp⟩

theorem allDigits_nil : AllDigits [] := by
  intro c hc; simp at hc

theorem allDigits_push {ds : List Char} {c : Char} (h : AllDigits ds) (hc : c.isDigit = true) :
    AllDigits (ds ++ [c]) := by
  intro x hx
  rcases List.mem_append.mp hx with hx | hx
  · exact h x hx
  · simp at hx; subst hx; exact hc

/-- Scanning the output of the marker replacer finds exactly the mapped
markers: rewriting markers neither destroys markers nor creates new ones out
of the copied-verbatim characters. -/
theorem scanFrom_replaceFrom (f : Nat → Nat) :
    ∀ (l : List Char) (st : ScanState), StateDigits st →
      scanFrom none (replaceFrom f st l) = (scanFrom st l).map f := by
  intro l
  induction l with
  | nil =>
    intro st hst
    cases st with
    | none => simp [replaceFrom_nil_none, scanFrom_nil]
    | some ds =>
      rw [replaceFrom_nil_some, scanFrom_lbracket, ← List.append_nil ds,
        scanFrom_digits_append hst, scanFrom_nil, scanFrom_nil]
      simp
  | cons c cs ih =>
    intro st hst
    by_cases hlb : c = '['
    · subst hlb
      rw [replaceFrom_lbracket, scanFrom_lbracket]
      cases st with
      | none =>
        simp only [flushOf, List.nil_append]
        exact ih (some []) allDigits_nil
      | some ds =>
        simp only [flushOf]
        obtain ⟨r, hr⟩ := replaceFrom_some_head f cs []
        have hih := ih (some []) allDigits_nil
        rw [hr] at hih ⊢
        rw [scanFrom_lbracket] at hih
        rw [List.cons_append, scanFrom_lbracket, scanFrom_digits_append hst,
          scanFrom_lbracket]
        exact hih
    · cases st with
      | none =>
        rw [replaceFrom_none_cons f hlb, scanFrom_none_cons hlb, scanFrom_none_cons hlb]
        exact ih none trivial
      | some ds =>
        by_cases hdig : c.isDigit
        · rw [replaceFrom_digit f hdig, scanFrom_digit hdig]
          exact ih (some (ds ++ [c])) (allDigits_push hst hdig)
        · have hd' : c.isDigit = false := by simpa using hdig
          by_cases hrb : c = ']'
          · subst hrb
            by_cases hnil : ds = []
            · subst hnil
              rw [replaceFrom_rbracket_nil, scanFrom_rbracket_nil, scanFrom_lbracket,
                scanFrom_rbracket_nil]
              exact ih none trivial
            · rw [replaceFrom_rbracket f hnil, scanFrom_rbracket hnil]
              have hassoc :
                  ('[' :: natDigits (f (digitsVal ds)) ++ [']']) ++ replaceFrom f none cs =
                    '[' :: (natDigits (f (digitsVal ds)) ++ (']' :: replaceFrom f none cs)) := by
                simp
              rw [hassoc, scanFrom_lbracket,
                scanFrom_digits_append (natDigits_all_digits _), List.nil_append,
                scanFrom_rbracket (natDigits_ne_nil _), digitsVal_natDigits]
              simp [ih none trivial]
          · rw [replaceFrom_other f hlb hd' hrb, scanFrom_other hlb hd' hrb]
            have hassoc :
                ('[' :: ds ++ [c]) ++ replaceFrom f none cs =
                  '[' :: (ds ++ (c :: replaceFrom f none cs)) := by
              simp
            rw [hassoc, scanFrom_lbracket, scanFrom_digits_append hst,
              scanFrom_other hlb hd' hrb]
            exact ih none trivial

/-- Scanning a rewritten text: top-level form used by the claims. -/
theorem citationsFound_replace (f : Nat → Nat) (answer : List Char) :
    citationsFound (replaceFrom f none answer) = (citationsFound answer).map f :=
  scanFrom_replaceFrom f answer none trivial

/-- Running the marker replacer twice composes the two marker maps: the
second pass rewrites exactly the markers the first pass produced. -/
theorem replaceFrom_replaceFrom (f g : Nat → Nat) :
    ∀ (l : List Char) (st : ScanState), StateDigits st →
      replaceFrom g none (replaceFrom f st l) = replaceFrom (fun n => g (f n)) st l := by
  intro l
  induction l with
  | nil =>
    intro st hst
    cases st with
    | none => rfl
    | some ds =>
      rw [replaceFrom_nil_some, replaceFrom_nil_some, replaceFrom_lbracket,
        ← List.append_nil ds, replaceFrom_digits_append g hst, replaceFrom_nil_some]
      simp [flushOf]
  | cons c cs ih =>
    intro st hst
    by_cases hlb : c = '['
    · subst hlb
      rw [replaceFrom_lbracket, replaceFrom_lbracket]
      cases st with
      | none =>
        simp only [flushOf, List.nil_append]
        exact ih (some []) allDigits_nil
      | some ds =>
        simp only [flushOf]
        obtain ⟨r, hr⟩ := replaceFrom_some_head f cs []
        have hih := ih (some []) allDigits_nil
        rw [hr] at hih ⊢
        rw [replaceFrom_lbracket] at hih
        simp only [flushOf, List.nil_append] at hih
        rw [List.cons_append, replaceFrom_lbracket]
        simp only [flushOf, List.nil_append]
        rw [replaceFrom_digits_append g hst, List.nil_append, replaceFrom_lbracket]
        simp only [flushOf]
        rw [hih, List.cons_append]
    · cases st with
      | none =>
        rw [replaceFrom_none_cons f hlb, replaceFrom_none_cons g hlb,
          replaceFrom_none_cons _ hlb, ih none trivial]
      | some ds =>
        by_cases hdig : c.isDigit
        · rw [replaceFrom_digit f hdig, replaceFrom_digit _ hdig]
          exact ih (some (ds ++ [c])) (allDigits_push hst hdig)
        · have hd' : c.isDigit = false := by simpa using hdig
          by_cases hrb : c = ']'
          · subst hrb
            by_cases hnil : ds = []
            · subst hnil
              rw [replaceFrom_rbracket_nil, replaceFrom_rbracket_nil, replaceFrom_lbracket]
              simp only [flushOf, List.nil_append]
              rw [replaceFrom_rbracket_nil, ih none trivial]
            · rw [replaceFrom_rbracket f hnil, replaceFrom_rbracket _ hnil]
              have hassoc :
                  ('[' :: natDigits (f (digitsVal ds)) ++ [']']) ++ replaceFrom f none cs =
                    '[' :: (natDigits (f (digitsVal ds)) ++ (']' :: replaceFrom f none cs)) := by
                simp
              rw [hassoc, replaceFrom_lbracket]
              simp only [flushOf, List.nil_append]
              rw [replaceFrom_digits_append g (natDigits_all_digits _), List.nil_append,
                replaceFrom_rbracket g (natDigits_ne_nil _), digitsVal_natDigits,
                ih none trivial]
          · rw [replaceFrom_other f hlb hd' hrb, replaceFrom_other _ hlb hd' hrb]
            have hassoc :
                ('[' :: ds ++ [c]) ++ replaceFrom f none cs =
                  '[' :: (ds ++ (c :: replaceFrom f none cs)) := by
              simp
            rw [hassoc, replaceFrom_lbracket]
            simp only [flushOf, List.nil_append]
            rw [replaceFrom_digits_append g hst, List.nil_append,
              replaceFrom_other g hlb hd' hrb, ih none trivial]

/-- The replacer only consults the map at marker values that the scanner
actually finds. -/
theorem replaceFrom_congr (f g : Nat → Nat) :
    ∀ (l : List Char) (st : ScanState), (∀ n ∈ scanFrom st l, f n = g n) →
      replaceFrom f st l = replaceFrom g st l := by
  intro l
  induction l with
  | nil => intro st _; cases st <;> rfl
  | cons c cs ih =>
    intro st hfg
    by_cases hlb : c = '['
    · subst hlb
      rw [replaceFrom_lbracket, replaceFrom_lbracket,
        ih (some []) (by rw [← scanFrom_lbracket st]; exact hfg)]
    · cases st with
      | none =>
        rw [replaceFrom_none_cons f hlb, replaceFrom_none_cons g hlb,
          ih none (by rw [← scanFrom_none_cons hlb]; exact hfg)]
      | some ds =>
        by_cases hdig : c.isDigit
        · rw [replaceFrom_digit f hdig, replaceFrom_digit g hdig]
          exact ih (some (ds ++ [c])) (by rw [← scanFrom_digit hdig]; exact hfg)
        · have hd' : c.isDigit = false := by simpa using hdig
          by_cases hrb : c = ']'
          · subst hrb
            by_cases hnil : ds = []
            · subst hnil
              rw [replaceFrom_rbracket_nil, replaceFrom_rbracket_nil,
                ih none (by rw [← scanFrom_rbracket_nil]; exact hfg)]
            · have hmem := hfg (digitsVal ds) (by rw [scanFrom_rbracket hnil]; simp)
              rw [replaceFrom_rbracket f hnil, replaceFrom_rbracket g hnil, hmem,
                ih none (fun n hn => hfg n (by rw [scanFrom_rbracket hnil]; simp [hn]))]
          · rw [replaceFrom_other f hlb hd' hrb, replaceFrom_other g hlb hd' hrb,
              ih none (by rw [← scanFrom_other hlb hd' hrb ds]; exact hfg)]

/-! Lemmas about the renumber map. -/

theorem firstDedupFrom_congr : ∀ (l : List Nat) {s t : List Nat}, (∀ x, x ∈ s ↔ x ∈ t) →
    firstDedupFrom s l = firstDedupFrom t l := by
  intro l
  induction l with
  | nil => intro s t _; rfl
  | cons n rest ih =>
    intro s t h
    simp only [firstDedupFrom]
    by_cases hn : n ∈ s
    · rw [if_pos hn, if_pos ((h n).mp hn)]
      exact ih h
    · rw [if_neg hn, if_neg (fun hc => hn ((h n).mpr hc))]
      exact congrArg (n :: ·) (ih (fun x => by simp [h x]))

theorem mem_firstDedupFrom : ∀ (l s : List Nat) (x : Nat),
    x ∈ firstDedupFrom s l ↔ x ∈ l ∧ x ∉ s := by
  intro l
  induction l with
  | nil => intro s x; simp [firstDedupFrom]
  | cons n rest ih =>
    intro s x
    by_cases hn : n ∈ s
    · rw [firstDedupFrom, if_pos hn, ih]
      simp only [List.mem_cons]
      constructor
      · rintro ⟨hx, hxs⟩; exact ⟨Or.inr hx, hxs⟩
      · rintro ⟨hx | hx, hxs⟩
        · exact absurd (hx ▸ hn) hxs
        · exact ⟨hx, hxs⟩
    · rw [firstDedupFrom, if_neg hn]
      simp only [List.mem_cons, ih]
      constructor
      · rintro (rfl | ⟨hx, hxs⟩)
        · exact ⟨Or.inl rfl, hn⟩
        · exact ⟨Or.inr hx, fun hc => hxs (by simp [hc])⟩
      · rintro ⟨rfl | hx, hxs⟩
        · exact Or.inl rfl
        · by_cases hxn : x = n
          · exact Or.inl hxn
          · exact Or.inr ⟨hx, by simp [hxn, hxs]⟩

theorem nodup_firstDedupFrom : ∀ (l s : List Nat), (firstDedupFrom s l).Nodup := by
  intro l
  induction l with
  | nil => intro s; simp [firstDedupFrom]
  | cons n rest ih =>
    intro s
    by_cases hn : n ∈ s
    · rw [firstDedupFrom, if_pos hn]; exact ih s
    · rw [firstDedupFrom, if_neg hn]
      refine List.nodup_cons.mpr ⟨fun hc => ?_, ih (n :: s)⟩
      exact ((mem_firstDedupFrom rest (n :: s) n).mp hc).2 (by simp)

theorem mem_firstDedup (l : List Nat) (x : Nat) : x ∈ firstDedup l ↔ x ∈ l := by
  simp [firstDedup, mem_firstDedupFrom]

theorem nodup_firstDedup (l : List Nat) : (firstDedup l).Nodup := nodup_firstDedupFrom l []

theorem indexedFrom_length : ∀ (D : List Nat) (k : Nat), (indexedFrom k D).length = D.length := by
  intro D
  induction D with
  | nil => intro k; rfl
  | cons n rest ih => intro k; simp [indexedFrom, ih]

theorem indexedFrom_map_fst : ∀ (D : List Nat) (k : Nat),
    (indexedFrom k D).map Prod.fst = D := by
  intro D
  induction D with
  | nil => intro k; rfl
  | cons n rest ih => intro k; simp [indexedFrom, ih]

theorem indexedFrom_map_snd : ∀ (D : List Nat) (k : Nat),
    (indexedFrom k D).map Prod.snd = List.range' k D.length := by
  intro D
  induction D with
  | nil => intro k; rfl
  | cons n rest ih => intro k; simp [indexedFrom, ih, List.range'_succ]

theorem lookup_indexedFrom : ∀ (D : List Nat), D.Nodup → ∀ (k x v : Nat),
    ((indexedFrom k D).lookup x = some v ↔ ∃ i, D.get? i = some x ∧ v = k + i) := by
  intro D
  induction D with
  | nil =>
    intro _ k x v
    simp [indexedFrom, List.lookup]
  | cons n rest ih =>
    intro hnd k x v
    have hnmem : n ∉ rest := (List.nodup_cons.mp hnd).1
    have hrest : rest.Nodup := (List.nodup_cons.mp hnd).2
    by_cases hx : x = n
    · subst hx
      simp only [indexedFrom, List.lookup, beq_self_eq_true]
      constructor
      · rintro h
        exact ⟨0, by simp, by simpa using h.symm⟩
      · rintro ⟨i, hi, rfl⟩
        match i with
        | 0 => simp
        | i + 1 =>
          exfalso
          exact hnmem (List.get?_mem (by simpa using hi))
    · have hbeq : (x == n) = false := by simp [hx]
      simp only [indexedFrom, List.lookup, hbeq]
      rw [ih hrest (k + 1) x v]
      constructor
      · rintro ⟨i, hi, rfl⟩
        exact ⟨i + 1, by simpa using hi, by omega⟩
      · rintro ⟨i, hi, rfl⟩
        match i with
        | 0 => exact absurd (by simpa using hi.symm) hx
        | i + 1 => exact ⟨i, by simpa using hi, by omega⟩

theorem lookup_isSome_mem (l : List (Nat × Nat)) (x : Nat) :
    (l.lookup x).isSome = true ↔ x ∈ l.map Prod.fst := by
  rw [List.lookup_isSome_iff]
  simp only [List.mem_map, beq_iff_eq]
  constructor
  · rintro ⟨p, hp, rfl⟩; exact ⟨p, hp, rfl⟩
  · rintro ⟨p, hp, rfl⟩; exact ⟨p, hp, rfl⟩

theorem buildMap_go : ∀ (l : List Nat) (acc : List (Nat × Nat)),
    l.foldl (fun m oldNum =>
        if (m.lookup oldNum).isSome then m else m ++ [(oldNum, m.length + 1)]) acc =
      acc ++ indexedFrom (acc.length + 1) (firstDedupFrom (acc.map Prod.fst) l) := by
  intro l
  induction l with
  | nil => intro acc; simp [firstDedupFrom, indexedFrom]
  | cons n rest ih =>
    intro acc
    rw [List.foldl_cons]
    by_cases hn : n ∈ acc.map Prod.fst
    · rw [if_pos ((lookup_isSome_mem acc n).mpr hn), ih acc, firstDedupFrom, if_pos hn]
    · rw [if_neg (by rw [lookup_isSome_mem acc n] at *; simp [hn]),
        ih (acc ++ [(n, acc.length + 1)]), firstDedupFrom, if_neg hn]
      have hkeys : ∀ x, x ∈ (acc ++ [(n, acc.length + 1)]).map Prod.fst ↔ x ∈ n :: acc.map Prod.fst := by
        intro x; simp [or_comm]
      rw [firstDedupFrom_congr rest hkeys]
      simp [indexedFrom, List.append_assoc]

theorem buildMap_eq (l : List Nat) : buildMap l = indexedFrom 1 (firstDedup l) := by
  rw [buildMap, buildMap_go l []]
  rfl

theorem buildMap_lookup {l : List Nat} {n v : Nat} :
    (buildMap l).lookup n = some v ↔ ∃ i, (firstDedup l).get? i = some n ∧ v = 1 + i := by
  rw [buildMap_eq]
  exact lookup_indexedFrom (firstDedup l) (nodup_firstDedup l) 1 n v

theorem buildMap_keys (l : List Nat) : (buildMap l).map Prod.fst = firstDedup l := by
  rw [buildMap_eq, indexedFrom_map_fst]

theorem buildMap_lookup_isSome {l : List Nat} {n : Nat} :
    ((buildMap l).lookup n).isSome = true ↔ n ∈ l := by
  rw [lookup_isSome_mem, buildMap_keys, mem_firstDedup]

theorem buildMap_lookup_of_mem {l : List Nat} {n : Nat} (h : n ∈ l) :
    ∃ i, (firstDedup l).get? i = some n ∧ (buildMap l).lookup n = some (1 + i) := by
  obtain ⟨v, hv⟩ := Option.isSome_iff_exists.mp (buildMap_lookup_isSome.mpr h)
  obtain ⟨i, hi, rfl⟩ := buildMap_lookup.mp hv
  exact ⟨i, hi, hv⟩

theorem jsOr_some_pos {v b : Nat} (h : 1 ≤ v) : jsOr (some v) b = v := by
  simp [jsOr]; omega

theorem renumberFn_of_mem {found : List Nat} {n : Nat} (h : n ∈ found) :
    ∃ i, (firstDedup found).get? i = some n ∧ renumberFn found n = 1 + i := by
  obtain ⟨i, hi, hlk⟩ := buildMap_lookup_of_mem h
  exact ⟨i, hi, by rw [renumberFn, hlk, jsOr_some_pos (by omega)]⟩

theorem renumberFn_injOn {found : List Nat} {a b : Nat} (ha : a ∈ found) (hb : b ∈ found)
    (h : renumberFn found a = renumberFn found b) : a = b := by
  obtain ⟨i, hi, hvi⟩ := renumberFn_of_mem ha
  obtain ⟨j, hj, hvj⟩ := renumberFn_of_mem hb
  have hij : i = j := by omega
  subst hij
  rw [hi] at hj
  exact Option.some.inj hj

theorem map_renumberFn_firstDedup (found : List Nat) :
    (firstDedup found).map (renumberFn found) = List.range' 1 (firstDedup found).length := by
  apply List.ext_getElem?
  intro i
  by_cases hi : i < (firstDedup found).length
  · have hkey : (firstDedup found)[i]? = some ((firstDedup found)[i]) :=
      List.getElem?_eq_getElem hi
    have hget : (firstDedup found).get? i = some ((firstDedup found)[i]) := by
      rw [List.get?_eq_getElem?, hkey]
    have hlk : (buildMap found).lookup ((firstDedup found)[i]) = some (1 + i) :=
      buildMap_lookup.mpr ⟨i, hget, rfl⟩
    rw [List.getElem?_map, hkey, List.getElem?_range' _ _ hi]
    show some (renumberFn found ((firstDedup found)[i])) = some (1 + 1 * i)
    rw [renumberFn, hlk, jsOr_some_pos (by omega)]
    congr 1
    omega
  · rw [List.getElem?_map]
    rw [List.getElem?_eq_none (by simpa using hi), List.getElem?_eq_none (by simpa using hi)]
    rfl

theorem firstDedupFrom_map {f : Nat → Nat} : ∀ (l s : List Nat),
    (∀ a b, (a ∈ l ∨ a ∈ s) → (b ∈ l ∨ b ∈ s) → f a = f b → a = b) →
    firstDedupFrom (s.map f) (l.map f) = (firstDedupFrom s l).map f := by
  intro l
  induction l with
  | nil => intro s _; rfl
  | cons n rest ih =>
    intro s hinj
    have hmemiff : f n ∈ s.map f ↔ n ∈ s := by
      constructor
      · rintro hc
        obtain ⟨b, hb, hfb⟩ := List.mem_map.mp hc
        have := hinj b n (Or.inr hb) (Or.inl (by simp)) hfb
        exact this ▸ hb
      · intro hn; exact List.mem_map.mpr ⟨n, hn, rfl⟩
    have hcast1 : ∀ a, (a ∈ rest ∨ a ∈ s) → (a ∈ n :: rest ∨ a ∈ s) := by
      intro a ha
      rcases ha with h | h
      · exact Or.inl (List.mem_cons_of_mem n h)
      · exact Or.inr h
    have hcast2 : ∀ a, (a ∈ rest ∨ a ∈ n :: s) → (a ∈ n :: rest ∨ a ∈ s) := by
      intro a ha
      rcases ha with h | h
      · exact Or.inl (List.mem_cons_of_mem n h)
      · rcases List.mem_cons.mp h with h | h
        · exact Or.inl (h ▸ List.mem_cons_self n rest)
        · exact Or.inr h
    by_cases hn : n ∈ s
    · rw [List.map_cons, firstDedupFrom, if_pos (hmemiff.mpr hn), firstDedupFrom, if_pos hn]
      exact ih s (fun a b ha hb h => hinj a b (hcast1 a ha) (hcast1 b hb) h)
    · rw [List.map_cons, firstDedupFrom, if_neg (fun hc => hn (hmemiff.mp hc)),
        firstDedupFrom, if_neg hn, List.map_cons]
      have hmap : (f n :: s.map f) = (n :: s).map f := by simp
      rw [hmap, ih (n :: s) (fun a b ha hb h => hinj a b (hcast2 a ha) (hcast2 b hb) h)]

theorem firstDedup_map_renumberFn (found : List Nat) :
    firstDedup (found.map (renumberFn found)) = List.range' 1 (firstDedup found).length := by
  rw [firstDedup, show ([] : List Nat) = ([] : List Nat).map (renumberFn found) from rfl,
    firstDedupFrom_map found []
      (fun a b ha hb h => renumberFn_injOn (by simpa using ha) (by simpa using hb) h)]
  exact map_renumberFn_firstDedup found

theorem renumberFn_second {found : List Nat} {k : Nat}
    (h : k ∈ found.map (renumberFn found)) :
    renumberFn (found.map (renumberFn found)) k = k := by
  obtain ⟨j, hj, hval⟩ := renumberFn_of_mem h
  rw [firstDedup_map_renumberFn found] at hj
  have hjlt : j < (firstDedup found).length := by
    by_contra hge
    rw [List.get?_eq_getElem?, List.getElem?_eq_none
      (by simpa [List.length_range'] using hge)] at hj
    exact Option.noConfusion hj
  rw [List.get?_eq_getElem?, List.getElem?_range' _ _ hjlt] at hj
  have hk : 1 + 1 * j = k := Option.some.inj hj
  rw [hval]
  omega

/-- Applying renumberCitations to its own text output rewrites every marker
to itself. -/
theorem renumber_idempotent (answer : List Char) :
    (renumberCitations (renumberCitations answer).1).1 = (renumberCitations answer).1 := by
  set found := citationsFound answer with hfound
  have htext1 : (renumberCitations answer).1 = replaceFrom (renumberFn found) none answer := rfl
  have hfound1 : citationsFound (renumberCitations answer).1 = found.map (renumberFn found) := by
    rw [htext1, citationsFound_replace]
  rw [htext1]
  show replaceFrom (renumberFn (citationsFound (replaceFrom (renumberFn found) none answer)))
      none (replaceFrom (renumberFn found) none answer) = replaceFrom (renumberFn found) none answer
  rw [show citationsFound (replaceFrom (renumberFn found) none answer) =
      found.map (renumberFn found) from hfound1]
  rw [replaceFrom_replaceFrom (renumberFn found) (renumberFn (found.map (renumberFn found)))
    answer none trivial]
  exact replaceFrom_congr _ _ answer none
    (fun n hn => renumberFn_second (List.mem_map.mpr ⟨n, hn, rfl⟩))

/-! Characterization of extractCitations. -/

theorem jsIndex_pos {α : Type} {n : Nat} (h : 1 ≤ n) (l : List α) :
    jsIndex l ((n : Int) - 1) = l.get? (n - 1) := by
  rw [jsIndex, if_neg (by omega)]
  congr 1
  omega

theorem extract_fold {docs : List RetrievedDoc} :
    ∀ (S : List Nat) (acc : List Citation), (∀ n ∈ S, 1 ≤ n) →
      S.foldlM (fun citations sourceNum =>
        if sourceNum ≤ docs.length then
          match jsIndex docs ((sourceNum : Int) - 1) with
          | none => none
          | some doc => some (citations ++ [⟨sourceNum, doc.content, doc.metadata⟩])
        else some citations) acc =
      some (acc ++ (S.filter (fun n => n ≤ docs.length)).map (mkCitationOf docs)) := by
  intro S
  induction S with
  | nil => intro acc _; simp
  | cons n S ih =>
    intro acc hpos
    have hn1 : 1 ≤ n := hpos n (by simp)
    rw [List.foldlM_cons]
    by_cases hnL : n ≤ docs.length
    · have hidx : n - 1 < docs.length := by omega
      have hdoc : jsIndex docs ((n : Int) - 1) = some docs[n - 1] := by
        rw [jsIndex_pos hn1, List.get?_eq_getElem?, List.getElem?_eq_getElem hidx]
      have hmk : mkCitationOf docs n = ⟨n, docs[n - 1].content, docs[n - 1].metadata⟩ := by
        rw [mkCitationOf]
        simp [List.getD_eq_getElem?_getD, List.getElem?_eq_getElem hidx]
      rw [if_pos hnL, hdoc]
      show S.foldlM _ (acc ++ [(⟨n, docs[n - 1].content, docs[n - 1].metadata⟩ : Citation)]) =
        _
      rw [ih _ (fun x hx => hpos x (by simp [hx]))]
      rw [List.filter_cons_of_pos (by simpa using hnL), List.map_cons, hmk]
      simp
    · rw [if_neg hnL]
      show S.foldlM _ acc = _
      rw [ih _ (fun x hx => hpos x (by simp [hx])),
        List.filter_cons_of_neg (by simpa using hnL)]

theorem eq_of_pairwise_lt_of_mem : ∀ (l₁ l₂ : List Nat), l₁.Pairwise (· < ·) →
    l₂.Pairwise (· < ·) → (∀ n, n ∈ l₁ ↔ n ∈ l₂) → l₁ = l₂ := by
  intro l₁
  induction l₁ with
  | nil =>
    intro l₂ _ _ hmem
    cases l₂ with
    | nil => rfl
    | cons b t => exact absurd ((hmem b).mpr (by simp)) (by simp)
  | cons a t ih =>
    intro l₂ h₁ h₂ hmem
    cases l₂ with
    | nil => exact absurd ((hmem a).mp (by simp)) (by simp)
    | cons b t₂ =>
      have hab : a = b := by
        rcases List.mem_cons.mp ((hmem a).mp (by simp)) with h | h
        · exact h
        · rcases List.mem_cons.mp ((hmem b).mpr (by simp)) with h' | h'
          · exact h'.symm
          · have hba : b < a := (List.pairwise_cons.mp h₂).1 a h
            have hab : a < b := (List.pairwise_cons.mp h₁).1 b h'
            omega
      subst hab
      congr 1
      apply ih t₂ (List.pairwise_cons.mp h₁).2 (List.pairwise_cons.mp h₂).2
      intro n
      constructor
      · intro hn
        have hlt : a < n := (List.pairwise_cons.mp h₁).1 n hn
        rcases List.mem_cons.mp ((hmem n).mp (List.mem_cons_of_mem a hn)) with h | h
        · omega
        · exact h
      · intro hn
        have hlt : a < n := (List.pairwise_cons.mp h₂).1 n hn
        rcases List.mem_cons.mp ((hmem n).mpr (List.mem_cons_of_mem a hn)) with h | h
        · omega
        · exact h

theorem extractCitations_eq {answer : List Char} {docs : List RetrievedDoc}
    (h0 : ∀ n ∈ citationsFound answer, 1 ≤ n) :
    extractCitations answer docs = some (specCitationList answer docs) := by
  have hSmem : ∀ n, n ∈ ((citationsFound answer).dedup).insertionSort (fun a b => a ≤ b) ↔
      n ∈ citationsFound answer := by
    intro n
    rw [List.mem_insertionSort, List.mem_dedup]
  have hfold : extractCitations answer docs =
      some ([] ++ ((((citationsFound answer).dedup).insertionSort
          (fun a b => a ≤ b)).filter (fun n => n ≤ docs.length)).map (mkCitationOf docs)) :=
    extract_fold _ [] (fun n hn => h0 n ((hSmem n).mp hn))
  rw [hfold, List.nil_append, specCitationList]
  congr 1
  have hle : (((citationsFound answer).dedup).insertionSort (fun a b => a ≤ b)).Pairwise
      (fun a b : Nat => a ≤ b) :=
    List.sorted_insertionSort (fun a b : Nat => a ≤ b) ((citationsFound answer).dedup)
  have hnd : (((citationsFound answer).dedup).insertionSort (fun a b => a ≤ b)).Nodup :=
    (List.perm_insertionSort _ _).nodup_iff.mpr ((citationsFound answer).nodup_dedup)
  refine congrArg (List.map (mkCitationOf docs)) ?_
  apply eq_of_pairwise_lt_of_mem
  · exact ((hle.and hnd).imp (fun h => lt_of_le_of_ne h.1 h.2)).filter _
  · refine List.Pairwise.filter _ ?_
    exact List.pairwise_map.mpr
      ((List.pairwise_lt_range docs.length).imp (fun h => by omega))
  · intro n
    simp only [List.mem_filter, hSmem n, List.mem_map, List.mem_range, decide_eq_true_eq]
    constructor
    · rintro ⟨hnf, hnL⟩
      exact ⟨⟨n - 1, by have := h0 n hnf; omega, by have := h0 n hnf; omega⟩, hnf⟩
    · rintro ⟨⟨i, hi, rfl⟩, hnf⟩
      exact ⟨hnf, by omega⟩

/-! Analysis of reorderCitations. -/

theorem placeCitation_lookup_none {mapping : List (Nat × Nat)} {arr : JsArr} {c : Citation}
    (h : mapping.lookup c.source_id = none) : placeCitation mapping arr c = arr := by
  rw [placeCitation, h]

theorem JsArr.set_val_neg (arr : JsArr) {i : Int} (h : i < 0) (c : Citation) (j : Nat) :
    (arr.set i c).val j = arr.val j := by
  unfold JsArr.set
  rw [if_pos h]

theorem JsArr.set_val_nonneg (arr : JsArr) {i : Int} (h : ¬i < 0) (c : Citation) (j : Nat) :
    (arr.set i c).val j = if j = i.toNat then some c else arr.val j := by
  unfold JsArr.set
  rw [if_neg h]

theorem JsArr.set_size_neg (arr : JsArr) {i : Int} (h : i < 0) (c : Citation) :
    (arr.set i c).size = arr.size := by
  unfold JsArr.set
  rw [if_pos h]

theorem JsArr.set_size_nonneg (arr : JsArr) {i : Int} (h : ¬i < 0) (c : Citation) :
    (arr.set i c).size = max arr.size (i.toNat + 1) := by
  unfold JsArr.set
  rw [if_neg h]

theorem placeCitation_val (mapping : List (Nat × Nat)) (arr : JsArr) (c : Citation) (j : Nat) :
    (placeCitation mapping arr c).val j =
      if mapping.lookup c.source_id = some (j + 1) then some { c with source_id := j + 1 }
      else arr.val j := by
  cases hlk : mapping.lookup c.source_id with
  | none => rw [placeCitation, hlk, if_neg (by simp)]
  | some v =>
    rw [placeCitation, hlk]
    show (arr.set ((v : Int) - 1) { c with source_id := v }).val j =
      if some v = some (j + 1) then some { c with source_id := j + 1 } else arr.val j
    match v with
    | 0 =>
      rw [JsArr.set_val_neg arr (by omega), if_neg (by simp)]
    | w + 1 =>
      rw [JsArr.set_val_nonneg arr (by omega)]
      have htn : (((w + 1 : Nat) : Int) - 1).toNat = w := by omega
      rw [htn]
      by_cases hj : j = w
      · subst hj
        rw [if_pos rfl, if_pos rfl]
      · rw [if_neg hj, if_neg (by simp only [Option.some.injEq]; omega)]

theorem placeCitation_size {mapping : List (Nat × Nat)} {arr : JsArr} {c : Citation}
    (h : ∀ v, mapping.lookup c.source_id = some v → v ≤ arr.size) :
    (placeCitation mapping arr c).size = arr.size := by
  cases hlk : mapping.lookup c.source_id with
  | none => rw [placeCitation, hlk]
  | some v =>
    rw [placeCitation, hlk]
    show (arr.set ((v : Int) - 1) { c with source_id := v }).size = arr.size
    match v with
    | 0 => rw [JsArr.set_size_neg arr (by omega)]
    | w + 1 =>
      rw [JsArr.set_size_nonneg arr (by omega)]
      have hb := h (w + 1) hlk
      have htn : (((w + 1 : Nat) : Int) - 1).toNat = w := by omega
      rw [htn]
      omega

theorem foldl_place_size {mapping : List (Nat × Nat)} :
    ∀ (cs : List Citation) (arr : JsArr),
      (∀ c ∈ cs, ∀ v, mapping.lookup c.source_id = some v → v ≤ arr.size) →
      (cs.foldl (placeCitation mapping) arr).size = arr.size := by
  intro cs
  induction cs with
  | nil => intro arr _; rfl
  | cons c cs ih =>
    intro arr h
    have hsz : (placeCitation mapping arr c).size = arr.size :=
      placeCitation_size (h c (by simp))
    rw [List.foldl_cons, ih (placeCitation mapping arr c)
      (fun c' hc' v hv => hsz ▸ h c' (by simp [hc']) v hv), hsz]

theorem foldl_place_val_of_not_hit {mapping : List (Nat × Nat)} (j : Nat) :
    ∀ (cs : List Citation) (arr : JsArr),
      (∀ c ∈ cs, mapping.lookup c.source_id ≠ some (j + 1)) →
      (cs.foldl (placeCitation mapping) arr).val j = arr.val j := by
  intro cs
  induction cs with
  | nil => intro arr _; rfl
  | cons c cs ih =>
    intro arr h
    rw [List.foldl_cons, ih _ (fun c' hc' => h c' (by simp [hc'])), placeCitation_val,
      if_neg (h c (by simp))]

theorem foldl_place_val_of_hit {mapping : List (Nat × Nat)} (j : Nat)
    (cs₁ : List Citation) (c : Citation) (cs₂ : List Citation) (arr : JsArr)
    (hc : mapping.lookup c.source_id = some (j + 1))
    (h₂ : ∀ c' ∈ cs₂, mapping.lookup c'.source_id ≠ some (j + 1)) :
    ((cs₁ ++ c :: cs₂).foldl (placeCitation mapping) arr).val j =
      some { c with source_id := j + 1 } := by
  rw [List.foldl_append, List.foldl_cons, foldl_place_val_of_not_hit j cs₂ _ h₂,
    placeCitation_val, if_pos hc]

theorem filterMap_eq_map_of_forall_some {α β : Type} {l : List α} {f : α → Option β}
    {g : α → β} (h : ∀ x ∈ l, f x = some (g x)) : l.filterMap f = l.map g := by
  induction l with
  | nil => rfl
  | cons x l ih =>
    rw [List.filterMap_cons, h x (by simp), List.map_cons,
      ih (fun y hy => h y (by simp [hy]))]

/-- Canonical outcome of reorderCitations when the extracted citations carry
exactly the keys of a dense renumber map: slot j receives the citation of
the j-th first-appearing old number, rewritten to the new number j + 1. -/
theorem reorder_spec {D NS : List Nat} (hDnd : D.Nodup) (hNSnd : NS.Nodup)
    (hmem : ∀ n, n ∈ NS ↔ n ∈ D) (mk : Nat → Citation) (hmkid : ∀ n, (mk n).source_id = n) :
    reorderCitations (NS.map mk) (indexedFrom 1 D) =
      (List.range D.length).map (fun j => { mk (D.getD j 0) with source_id := j + 1 }) := by
  rw [reorderCitations]
  have hsize : ((NS.map mk).foldl (placeCitation (indexedFrom 1 D))
      ⟨(indexedFrom 1 D).length, fun _ => none⟩).size = (indexedFrom 1 D).length := by
    apply foldl_place_size
    rintro c hc v hv
    obtain ⟨i, hi, rfl⟩ := (lookup_indexedFrom D hDnd 1 c.source_id v).mp hv
    have : i < D.length := by
      by_contra hge
      rw [List.get?_eq_getElem?, List.getElem?_eq_none (by omega)] at hi
      exact Option.noConfusion hi
    rw [indexedFrom_length]
    show 1 + i ≤ D.length
    omega
  rw [JsArr.toList, hsize, indexedFrom_length]
  apply filterMap_eq_map_of_forall_some
  intro j hj
  have hjlt : j < D.length := List.mem_range.mp hj
  have hkey : D.get? j = some (D.getD j 0) := by
    rw [List.getD_eq_getElem?_getD, List.get?_eq_getElem?, List.getElem?_eq_getElem hjlt]
    rfl
  have hlk : (indexedFrom 1 D).lookup (D.getD j 0) = some (j + 1) := by
    rw [(lookup_indexedFrom D hDnd 1 (D.getD j 0) (j + 1))]
    exact ⟨j, hkey, by omega⟩
  have hkeyNS : D.getD j 0 ∈ NS := (hmem _).mpr (List.get?_mem hkey)
  obtain ⟨s₁, s₂, hsplit⟩ := List.append_of_mem hkeyNS
  have hs₂ : ∀ c' ∈ s₂.map mk, (indexedFrom 1 D).lookup c'.source_id ≠ some (j + 1) := by
    rintro c' hc' hlk'
    obtain ⟨n', hn', rfl⟩ := List.mem_map.mp hc'
    rw [hmkid n'] at hlk'
    obtain ⟨i, hi, hieq⟩ := (lookup_indexedFrom D hDnd 1 n' (j + 1)).mp hlk'
    have hij : i = j := by omega
    rw [hij, hkey] at hi
    have hn'eq : D.getD j 0 = n' := Option.some.inj hi
    rw [hsplit] at hNSnd
    have hnd2 : (D.getD j 0 :: s₂).Nodup := List.Nodup.of_append_right hNSnd
    exact (List.nodup_cons.mp hnd2).1 (hn'eq ▸ hn')
  rw [hsplit, List.map_append, List.map_cons]
  rw [foldl_place_val_of_hit j _ _ _ _ (by rw [hmkid]; exact hlk) hs₂]

/-- Master characterization: on a text whose markers are all in range, the
pipeline returns the renumbered text together with the dense canonical
citation list, whose slot j holds the document cited by the j-th
first-appearing marker, renumbered to j + 1. -/
theorem answerPipeline_inRange {answer : List Char} {docs : List RetrievedDoc}
    (W : ∀ n ∈ citationsFound answer, 1 ≤ n ∧ n ≤ docs.length) :
    answerPipeline answer docs = some
      ⟨(renumberCitations answer).1,
        (List.range (firstDedup (citationsFound answer)).length).map
          (fun j => { mkCitationOf docs ((firstDedup (citationsFound answer)).getD j 0) with
            source_id := j + 1 }),
        answer⟩ := by
  have h0 : ∀ n ∈ citationsFound answer, 1 ≤ n := fun n hn => (W n hn).1
  have hext := @extractCitations_eq answer docs h0
  show (match extractCitations answer docs with
    | none => none
    | some citations => some (⟨(renumberCitations answer).1,
        reorderCitations citations (renumberCitations answer).2, answer⟩ : QueryResult)) = _
  rw [hext]
  show some (⟨(renumberCitations answer).1,
      reorderCitations (specCitationList answer docs) (renumberCitations answer).2,
      answer⟩ : QueryResult) = _
  have hNSnd : (((List.range docs.length).map (· + 1)).filter
      (fun n => n ∈ citationsFound answer)).Nodup :=
    (List.Nodup.map (fun a b h => by omega) (List.nodup_range docs.length)).filter _
  have hmem : ∀ n, n ∈ (((List.range docs.length).map (· + 1)).filter
      (fun n => n ∈ citationsFound answer)) ↔ n ∈ firstDedup (citationsFound answer) := by
    intro n
    rw [mem_firstDedup]
    simp only [List.mem_filter, List.mem_map, List.mem_range, decide_eq_true_eq]
    constructor
    · rintro ⟨_, hnf⟩; exact hnf
    · intro hnf
      exact ⟨⟨n - 1, by have := W n hnf; omega, by have := W n hnf; omega⟩, hnf⟩
  have hp2 : (renumberCitations answer).2 = indexedFrom 1 (firstDedup (citationsFound answer)) :=
    buildMap_eq _
  rw [specCitationList, hp2,
    reorder_spec (nodup_firstDedup _) hNSnd hmem (mkCitationOf docs) (fun n => rfl)]

/-! Token decomposition lemmas. -/

theorem tokenizeFrom_lbracket (st : ScanState) (cs : List Char) :
    tokenizeFrom st ('[' :: cs) = (flushOf st).map Tok.chr ++ tokenizeFrom (some []) cs := by
  cases st <;> simp [tokenizeFrom, flushOf]

theorem tokenizeFrom_none_cons {c : Char} (h : c ≠ '[') (cs : List Char) :
    tokenizeFrom none (c :: cs) = Tok.chr c :: tokenizeFrom none cs := by
  simp [tokenizeFrom, h]

theorem tokenizeFrom_digit {c : Char} (h : c.isDigit = true) (ds cs : List Char) :
    tokenizeFrom (some ds) (c :: cs) = tokenizeFrom (some (ds ++ [c])) cs := by
  simp [tokenizeFrom, isDigit_ne_lbracket h, h]

theorem tokenizeFrom_rbracket_nil (cs : List Char) :
    tokenizeFrom (some []) (']' :: cs) = Tok.chr '[' :: Tok.chr ']' :: tokenizeFrom none cs := by
  simp [tokenizeFrom]

theorem tokenizeFrom_rbracket {ds : List Char} (h : ds ≠ []) (cs : List Char) :
    tokenizeFrom (some ds) (']' :: cs) =
      Tok.mark (digitsVal ds) ds :: tokenizeFrom none cs := by
  simp [tokenizeFrom, h]

theorem tokenizeFrom_other {c : Char} (h1 : c ≠ '[') (h2 : c.isDigit = false) (h3 : c ≠ ']')
    (ds cs : List Char) :
    tokenizeFrom (some ds) (c :: cs) =
      (('[' :: ds ++ [c]).map Tok.chr) ++ tokenizeFrom none cs := by
  simp [tokenizeFrom, h1, h2, h3]

theorem rebuildRaw_nil : rebuildRaw [] = [] := rfl

theorem rebuildRaw_cons (t : Tok) (ts : List Tok) :
    rebuildRaw (t :: ts) = t.rawText ++ rebuildRaw ts := by
  simp [rebuildRaw]

theorem rebuildRaw_append (ts₁ ts₂ : List Tok) :
    rebuildRaw (ts₁ ++ ts₂) = rebuildRaw ts₁ ++ rebuildRaw ts₂ := by
  simp [rebuildRaw]

theorem rebuildRaw_chrs (xs : List Char) : rebuildRaw (xs.map Tok.chr) = xs := by
  induction xs with
  | nil => rfl
  | cons c xs ih => rw [List.map_cons, rebuildRaw_cons, ih]; rfl

theorem rebuildNew_nil (f : Nat → Nat) : rebuildNew f [] = [] := rfl

theorem rebuildNew_cons (f : Nat → Nat) (t : Tok) (ts : List Tok) :
    rebuildNew f (t :: ts) = t.newText f ++ rebuildNew f ts := by
  simp [rebuildNew]

theorem rebuildNew_append (f : Nat → Nat) (ts₁ ts₂ : List Tok) :
    rebuildNew f (ts₁ ++ ts₂) = rebuildNew f ts₁ ++ rebuildNew f ts₂ := by
  simp [rebuildNew]

theorem rebuildNew_chrs (f : Nat → Nat) (xs : List Char) :
    rebuildNew f (xs.map Tok.chr) = xs := by
  induction xs with
  | nil => rfl
  | cons c xs ih => rw [List.map_cons, rebuildNew_cons, ih]; rfl

theorem marksOf_nil : marksOf [] = [] := rfl

theorem marksOf_cons_chr (c : Char) (ts : List Tok) :
    marksOf (Tok.chr c :: ts) = marksOf ts := by
  simp [marksOf]

theorem marksOf_cons_mark (n : Nat) (ds : List Char) (ts : List Tok) :
    marksOf (Tok.mark n ds :: ts) = n :: marksOf ts := by
  simp [marksOf]

theorem marksOf_append (ts₁ ts₂ : List Tok) :
    marksOf (ts₁ ++ ts₂) = marksOf ts₁ ++ marksOf ts₂ := by
  simp [marksOf]

theorem marksOf_chrs (xs : List Char) : marksOf (xs.map Tok.chr) = [] := by
  induction xs with
  | nil => rfl
  | cons c xs ih => rw [List.map_cons, marksOf_cons_chr, ih]

/-- Reassembling the tokens of a text gives the text back: the tokenizer
loses nothing. -/
theorem rebuildRaw_tokenizeFrom :
    ∀ (l : List Char) (st : ScanState), rebuildRaw (tokenizeFrom st l) = flushOf st ++ l := by
  intro l
  induction l with
  | nil =>
    intro st
    cases st with
    | none => rfl
    | some ds =>
      rw [show tokenizeFrom (some ds) [] = ('[' :: ds).map Tok.chr from rfl,
        rebuildRaw_chrs, flushOf]
      simp
  | cons c cs ih =>
    intro st
    by_cases hlb : c = '['
    · subst hlb
      rw [tokenizeFrom_lbracket, rebuildRaw_append, rebuildRaw_chrs, ih (some [])]
      simp [flushOf]
    · cases st with
      | none =>
        rw [tokenizeFrom_none_cons hlb, rebuildRaw_cons, ih none]
        rfl
      | some ds =>
        by_cases hdig : c.isDigit
        · rw [tokenizeFrom_digit hdig, ih (some (ds ++ [c]))]
          simp [flushOf]
        · have hd' : c.isDigit = false := by simpa using hdig
          by_cases hrb : c = ']'
          · subst hrb
            by_cases hnil : ds = []
            · subst hnil
              rw [tokenizeFrom_rbracket_nil, rebuildRaw_cons, rebuildRaw_cons, ih none]
              rfl
            · rw [tokenizeFrom_rbracket hnil, rebuildRaw_cons, ih none]
              simp [Tok.rawText, flushOf]
          · rw [tokenizeFrom_other hlb hd' hrb, rebuildRaw_append, rebuildRaw_chrs, ih none]
            simp [flushOf]

/-- The replacer output is the token list reassembled under the marker
map. -/
theorem replaceFrom_eq_rebuildNew (f : Nat → Nat) :
    ∀ (l : List Char) (st : ScanState), replaceFrom f st l = rebuildNew f (tokenizeFrom st l) := by
  intro l
  induction l with
  | nil =>
    intro st
    cases st with
    | none => rfl
    | some ds =>
      rw [replaceFrom_nil_some, show tokenizeFrom (some ds) [] = ('[' :: ds).map Tok.chr from rfl,
        rebuildNew_chrs]
  | cons c cs ih =>
    intro st
    by_cases hlb : c = '['
    · subst hlb
      rw [replaceFrom_lbracket, tokenizeFrom_lbracket, rebuildNew_append, rebuildNew_chrs,
        ih (some [])]
    · cases st with
      | none =>
        rw [replaceFrom_none_cons f hlb, tokenizeFrom_none_cons hlb, rebuildNew_cons, ih none]
        rfl
      | some ds =>
        by_cases hdig : c.isDigit
        · rw [replaceFrom_digit f hdig, tokenizeFrom_digit hdig, ih (some (ds ++ [c]))]
        · have hd' : c.isDigit = false := by simpa using hdig
          by_cases hrb : c = ']'
          · subst hrb
            by_cases hnil : ds = []
            · subst hnil
              rw [replaceFrom_rbracket_nil, tokenizeFrom_rbracket_nil, rebuildNew_cons,
                rebuildNew_cons, ih none]
              rfl
            · rw [replaceFrom_rbracket f hnil, tokenizeFrom_rbracket hnil, rebuildNew_cons,
                ih none]
              simp [Tok.newText]
          · rw [replaceFrom_other f hlb hd' hrb, tokenizeFrom_other hlb hd' hrb,
              rebuildNew_append, rebuildNew_chrs, ih none]

/-- The scanner finds exactly the marker tokens, in order. -/
theorem scanFrom_eq_marksOf :
    ∀ (l : List Char) (st : ScanState), scanFrom st l = marksOf (tokenizeFrom st l) := by
  intro l
  induction l with
  | nil =>
    intro st
    cases st with
    | none => rfl
    | some ds =>
      rw [scanFrom_nil, show tokenizeFrom (some ds) [] = ('[' :: ds).map Tok.chr from rfl,
        marksOf_chrs]
  | cons c cs ih =>
    intro st
    by_cases hlb : c = '['
    · subst hlb
      rw [scanFrom_lbracket, tokenizeFrom_lbracket, marksOf_append, marksOf_chrs,
        List.nil_append, ih (some [])]
    · cases st with
      | none =>
        rw [scanFrom_none_cons hlb, tokenizeFrom_none_cons hlb, marksOf_cons_chr, ih none]
      | some ds =>
        by_cases hdig : c.isDigit
        · rw [scanFrom_digit hdig, tokenizeFrom_digit hdig, ih (some (ds ++ [c]))]
        · have hd' : c.isDigit = false := by simpa using hdig
          by_cases hrb : c = ']'
          · subst hrb
            by_cases hnil : ds = []
            · subst hnil
              rw [scanFrom_rbracket_nil, tokenizeFrom_rbracket_nil, marksOf_cons_chr,
                marksOf_cons_chr, ih none]
            · rw [scanFrom_rbracket hnil, tokenizeFrom_rbracket hnil, marksOf_cons_mark,
                ih none]
          · rw [scanFrom_other hlb hd' hrb, tokenizeFrom_other hlb hd' hrb, marksOf_append,
              marksOf_chrs, List.nil_append, ih none]

/-! Retrieval lemmas. -/

theorem byScoreDesc_trans : ∀ (a b c : Nat × ℚ), byScoreDesc a b → byScoreDesc b c →
    byScoreDesc a c := by
  intro a b c hab hbc
  simp only [byScoreDesc, Bool.or_eq_true, Bool.and_eq_true, decide_eq_true_eq] at *
  rcases hab with h | ⟨h1, h2⟩ <;> rcases hbc with h' | ⟨h1', h2'⟩
  · exact Or.inl (h'.trans h)
  · exact Or.inl (by rw [← h1']; exact h)
  · exact Or.inl (by rw [h1]; exact h')
  · exact Or.inr ⟨h1.trans h1', h2.trans h2'⟩

theorem byScoreDesc_total : ∀ (a b : Nat × ℚ), byScoreDesc a b || byScoreDesc b a := by
  intro a b
  simp only [byScoreDesc, Bool.or_eq_true, Bool.and_eq_true, decide_eq_true_eq]
  rcases lt_trichotomy a.2 b.2 with h | h | h
  · exact Or.inr (Or.inl h)
  · rcases Nat.le_total a.1 b.1 with hle | hle
    · exact Or.inl (Or.inr ⟨h, hle⟩)
    · exact Or.inr (Or.inr ⟨h.symm, hle⟩)
  · exact Or.inl (Or.inl h)

theorem buildRetrieved_length (documents : List Doc) (scores : List ℚ) :
    ∀ (l : List Nat) (rank : Nat), (buildRetrieved documents scores rank l).length = l.length := by
  intro l
  induction l with
  | nil => intro rank; rfl
  | cons i l ih => intro rank; simp [buildRetrieved, ih]

theorem buildRetrieved_map_score (documents : List Doc) (scores : List ℚ) :
    ∀ (l : List Nat) (rank : Nat),
      (buildRetrieved documents scores rank l).map (fun d => d.score) =
        l.map (fun i => scores.getD i 0) := by
  intro l
  induction l with
  | nil => intro rank; rfl
  | cons i l ih => intro rank; simp [buildRetrieved, ih]

theorem buildRetrieved_map_sourceId (documents : List Doc) (scores : List ℚ) :
    ∀ (l : List Nat) (rank : Nat),
      (buildRetrieved documents scores rank l).map (fun d => d.sourceId) =
        List.range' rank l.length := by
  intro l
  induction l with
  | nil => intro rank; rfl
  | cons i l ih => intro rank; simp [buildRetrieved, ih, List.range'_succ]

theorem mem_sortedCandidates {scores : List ℚ} {p : Nat × ℚ} :
    p ∈ sortedCandidates scores ↔ p.1 < scores.length ∧ p.2 = scores.getD p.1 0 := by
  rw [sortedCandidates, List.mem_insertionSort]
  simp only [List.mem_map, List.mem_range]
  constructor
  · rintro ⟨i, hi, rfl⟩
    exact ⟨hi, rfl⟩
  · rintro ⟨h1, h2⟩
    exact ⟨p.1, h1, by rw [← h2]⟩

theorem sortedCandidates_perm (scores : List ℚ) :
    ((sortedCandidates scores).map Prod.fst).Perm (List.range scores.length) := by
  have hperm := (List.perm_insertionSort (fun p q => byScoreDesc p q = true)
    ((List.range scores.length).map (fun i => (i, scores.getD i 0)))).map Prod.fst
  rw [List.map_map] at hperm
  have hid : ((List.range scores.length).map
      (Prod.fst ∘ fun i => (i, scores.getD i 0))) = List.range scores.length := by
    have hfun : (Prod.fst ∘ fun i => (i, scores.getD i 0)) = fun i : Nat => i := rfl
    rw [hfun, List.map_id']
  rw [sortedCandidates]
  rw [hid] at hperm
  exact hperm

theorem sortedCandidates_pairwise (scores : List ℚ) :
    (sortedCandidates scores).Pairwise
      (fun p q => q.2 < p.2 ∨ (p.2 = q.2 ∧ p.1 < q.1)) := by
  haveI htot : IsTotal (Nat × ℚ) (fun p q => byScoreDesc p q = true) :=
    ⟨fun a b => by simpa using byScoreDesc_total a b⟩
  haveI htr : IsTrans (Nat × ℚ) (fun p q => byScoreDesc p q = true) :=
    ⟨byScoreDesc_trans⟩
  have hsorted := List.sorted_insertionSort (fun p q => byScoreDesc p q = true)
    ((List.range scores.length).map (fun i => (i, scores.getD i 0)))
  have hfst : ((sortedCandidates scores).map Prod.fst).Nodup :=
    (sortedCandidates_perm scores).nodup_iff.mpr (List.nodup_range _)
  have hne : (sortedCandidates scores).Pairwise (fun p q => p.1 ≠ q.1) :=
    List.pairwise_map.mp hfst
  have hsorted' : (sortedCandidates scores).Pairwise (fun p q => byScoreDesc p q = true) := by
    rw [sortedCandidates]
    exact hsorted
  refine (hsorted'.and hne).imp ?_
  rintro p q ⟨hle, hne'⟩
  simp only [byScoreDesc, Bool.or_eq_true, Bool.and_eq_true, decide_eq_true_eq] at hle
  rcases hle with h | ⟨h1, h2⟩
  · exact Or.inl h
  · exact Or.inr ⟨h1, lt_of_le_of_ne h2 hne'⟩

theorem sortedCandidates_fst_pairwise (scores : List ℚ) :
    ((sortedCandidates scores).map Prod.fst).Pairwise
      (fun i j => scores.getD j 0 < scores.getD i 0 ∨
        (scores.getD i 0 = scores.getD j 0 ∧ i < j)) := by
  rw [List.pairwise_map]
  refine (sortedCandidates_pairwise scores).imp_of_mem ?_
  intro p q hp hq hrel
  have hp2 := (mem_sortedCandidates.mp hp).2
  have hq2 := (mem_sortedCandidates.mp hq).2
  rw [← hp2, ← hq2]
  exact hrel

/-! Pipeline state lemmas. -/

theorem loadCorpusStep_eventId {C : Collaborators} {st st' : AppState} {e : List Char}
    {calls : List CollabCall} {corpus : Corpus}
    (h : loadCorpusStep C st e = (st', calls, .ok corpus)) : corpus.eventId = e := by
  rw [loadCorpusStep] at h
  split at h
  next cd hld =>
    have h22 : (Except.ok (⟨e, cd.documents, cd.embeddings⟩ : Corpus) :
        Except (List Char) Corpus) = Except.ok corpus := congrArg (fun p => p.2.2) h
    rw [← Except.ok.inj h22]
  next msg hld =>
    have h22 : (Except.error msg : Except (List Char) Corpus) = Except.ok corpus :=
      congrArg (fun p => p.2.2) h
    exact Except.noConfusion h22

theorem corpusStep_eventId {C : Collaborators} {st st' : AppState} {e : List Char}
    {calls : List CollabCall} {corpus : Corpus}
    (h : corpusStep C st e = (st', calls, .ok corpus)) : corpus.eventId = e := by
  rw [corpusStep] at h
  split at h
  next data hed =>
    split at h
    next hmatch =>
      have h22 : (Except.ok data : Except (List Char) Corpus) = Except.ok corpus :=
        congrArg (fun p => p.2.2) h
      rw [← Except.ok.inj h22]
      exact hmatch
    next hmatch => exact loadCorpusStep_eventId h
  next hed => exact loadCorpusStep_eventId h

theorem usedCorpus_eventId (C : Collaborators) (st : AppState) (apiKey query : List Char)
    (corpus : Corpus) (h : (handleCustomQuery C st apiKey query).usedCorpus = some corpus) :
    st.currentEventId = some corpus.eventId := by
  unfold handleCustomQuery at h
  split at h
  next => exact Option.noConfusion h
  next =>
    split at h
    next => exact Option.noConfusion h
    next =>
      split at h
      next => exact Option.noConfusion h
      next eventId hce =>
        split at h
        next st1 calls1 e1 hlm => exact Option.noConfusion h
        next st1 calls1 u hlm =>
          split at h
          next st2 calls2 e2 hcs => exact Option.noConfusion h
          next st2 calls2 corpus2 hcs =>
            have hid : corpus2.eventId = eventId := corpusStep_eventId hcs
            split at h
            next e3 hgen =>
              rw [hce, ← Option.some.inj h, hid]
            next answer hgen =>
              split at h
              next hap => rw [hce, ← Option.some.inj h, hid]
              next qr hap => rw [hce, ← Option.some.inj h, hid]

theorem stepUI_obs (C : Collaborators) (st : AppState) (a : UIAction) :
    ∀ p ∈ (stepUI C st a).2, p.1 = p.2 := by
  cases a with
  | select d ok => intro p hp; simp [stepUI] at hp
  | ask k q =>
    intro p hp
    rw [stepUI] at hp
    cases hc : (handleCustomQuery C st k q).usedCorpus with
    | none =>
      rw [hc] at hp
      simp at hp
    | some corpus =>
      rw [hc] at hp
      simp only [List.mem_singleton] at hp
      subst hp
      have hcur := usedCorpus_eventId C st k q corpus hc
      show corpus.eventId = st.currentEventId.getD []
      rw [hcur]
      rfl

theorem runUI_obs (C : Collaborators) :
    ∀ (acts : List UIAction) (st : AppState), ∀ p ∈ (runUI C st acts).2, p.1 = p.2 := by
  intro acts
  induction acts with
  | nil => intro st p hp; simp [runUI] at hp
  | cons a rest ih =>
    intro st p hp
    rw [runUI] at hp
    simp only [List.mem_append] at hp
    rcases hp with hp | hp
    · exact stepUI_obs C st a p hp
    · exact ih (stepUI C st a).1 p hp

theorem lt_of_get?_some {α : Type} {l : List α} {i : Nat} {a : α}
    (h : l.get? i = some a) : i < l.length := by
  by_contra hge
  rw [List.get?_eq_getElem?, List.getElem?_eq_none (by omega)] at h
  exact Option.noConfusion h

/-! Claim theorems. -/

/-- C2 counterexample: the claim says any referenced number below 1 is
silently dropped, but on the marker value 0 extractCitations reads
retrievedDocs[-1] (undefined) and throws; the text also carries the
in-range marker 1, which the claim says would still yield a citation. -/
theorem c2_zero_marker_throws :
    citationsFound ("x [0] y [1]".toList) = [0, 1] ∧
    extractCitations ("x [0] y [1]".toList)
      [⟨"a".toList, "am".toList, 1, 1⟩] = none := by
  constructor
  · decide
  · rfl

/-- C2 (amended): for every answer text none of whose markers is the digit
string 0, extractCitations collects the distinct bracketed numbers, silently
discards the ones above the number of retrieved documents, and returns
exactly one Citation per surviving distinct number, built from the document
at that 1-based position, sorted ascending (specCitationList is that
specification-side description). -/
theorem c2_extract_drops_out_of_range (answer : List Char) (docs : List RetrievedDoc)
    (h0 : ∀ n ∈ citationsFound answer, 1 ≤ n) :
    extractCitations answer docs = some (specCitationList answer docs) :=
  extractCitations_eq h0

/-- C2 witness: a text citing [3] and [1] against two documents. -/
theorem c2_extract_drops_out_of_range_witness :
    (∀ n ∈ citationsFound ("see [3] and [1]".toList), 1 ≤ n) ∧
    extractCitations ("see [3] and [1]".toList)
        [⟨"a".toList, "am".toList, 1, 1⟩, ⟨"b".toList, "bm".toList, 0, 2⟩] =
      some (specCitationList ("see [3] and [1]".toList)
        [⟨"a".toList, "am".toList, 1, 1⟩, ⟨"b".toList, "bm".toList, 0, 2⟩]) :=
  ⟨by decide, c2_extract_drops_out_of_range _ _ (by decide)⟩

/-- C3: the renumber map lists exactly the distinct old numbers in order of
first appearance, paired with the dense new numbers 1, 2, 3, ...; and on the
concrete order [3],[1],[3],[2] the map is 3 to 1, 1 to 2, 2 to 3 and the
rewritten text reads [1],[2],[1],[3]. -/
theorem c3_renumber_first_appearance (answer : List Char) :
    ((renumberCitations answer).2.map Prod.fst = firstDedup (citationsFound answer) ∧
      (renumberCitations answer).2.map Prod.snd =
        List.range' 1 (firstDedup (citationsFound answer)).length) ∧
    renumberCitations ("[3],[1],[3],[2]".toList) =
      ("[1],[2],[1],[3]".toList, [(3, 1), (1, 2), (2, 3)]) := by
  refine ⟨⟨?_, ?_⟩, ?_⟩
  · exact buildMap_keys _
  · show (buildMap (citationsFound answer)).map Prod.snd = _
    rw [buildMap_eq, indexedFrom_map_snd]
  · rfl

/-- C9: renumbering only touches markers.  Every answer text decomposes
into tokens (verbatim characters and bracketed-integer markers) such that
the input is the tokens reassembled as written, the renumbered output is
the same tokens with each marker replaced by another bracketed integer and
every other character unchanged, and the marker sequence of the input is
exactly the token marker sequence, so marker count and relative order are
preserved. -/
theorem c9_renumber_frame (answer : List Char) :
    ∃ ts : List Tok,
      answer = rebuildRaw ts ∧
      (renumberCitations answer).1 = rebuildNew (renumberFn (citationsFound answer)) ts ∧
      citationsFound answer = marksOf ts := by
  refine ⟨tokenize answer, ?_, ?_, ?_⟩
  · rw [tokenize, rebuildRaw_tokenizeFrom answer none]
    simp [flushOf]
  · exact replaceFrom_eq_rebuildNew _ answer none
  · exact scanFrom_eq_marksOf answer none

/-- C10: text renumbering is idempotent, and in the once-renumbered text
the distinct marker numbers first appear in the order 1, 2, 3, ... -/
theorem c10_renumber_idempotent (answer : List Char) :
    (renumberCitations ((renumberCitations answer).1)).1 = (renumberCitations answer).1 ∧
    firstDedup (citationsFound ((renumberCitations answer).1)) =
      List.range' 1 (firstDedup (citationsFound answer)).length := by
  refine ⟨renumber_idempotent answer, ?_⟩
  show firstDedup (citationsFound
    (replaceFrom (renumberFn (citationsFound answer)) none answer)) = _
  rw [citationsFound_replace]
  exact firstDedup_map_renumberFn _

/-- C1 counterexample: on the raw generator output "see [2]" with a single
retrieved document, the pipeline produces the final text "see [1]" with an
empty citation list: the marker [1] appears in the final answer but there
is no entry at citations[0], so the round-trip closure fails for texts with
out-of-range markers. -/
theorem c1_out_of_range_breaks_closure :
    answerPipeline ("see [2]".toList) [⟨"d".toList, "dm".toList, 1, 1⟩] =
      some ⟨"see [1]".toList, [], "see [2]".toList⟩ ∧
    1 ∈ citationsFound ("see [1]".toList) ∧
    ([] : List Citation).get? 0 = none := by
  refine ⟨rfl, by decide, rfl⟩

/-- C1 (amended): for every raw answer text all of whose markers are in
range (at least 1 and at most the number of retrieved documents), the
pipeline yields a QueryResult in which every marker [k] of the final
answer has the entry with source_id k at citations[k - 1], every citation
entry is referenced by at least one marker, and the entry at index i
carries source_id i + 1. -/
theorem c1_citation_closure (answer : List Char) (docs : List RetrievedDoc)
    (W : ∀ n ∈ citationsFound answer, 1 ≤ n ∧ n ≤ docs.length) :
    ∃ qr : QueryResult, answerPipeline answer docs = some qr ∧
      (∀ k ∈ citationsFound qr.answer,
        ∃ c, qr.citations.get? (k - 1) = some c ∧ c.source_id = k) ∧
      (∀ i, i < qr.citations.length → (i + 1) ∈ citationsFound qr.answer) ∧
      (∀ i c, qr.citations.get? i = some c → c.source_id = i + 1) := by
  refine ⟨_, answerPipeline_inRange W, ?_, ?_, ?_⟩
  · intro k hk
    have hfound : citationsFound (replaceFrom (renumberFn (citationsFound answer)) none answer) =
        (citationsFound answer).map (renumberFn (citationsFound answer)) :=
      citationsFound_replace _ _
    rw [show ((⟨(renumberCitations answer).1, _, answer⟩ : QueryResult)).answer =
      replaceFrom (renumberFn (citationsFound answer)) none answer from rfl, hfound] at hk
    obtain ⟨n, hn, rfl⟩ := List.mem_map.mp hk
    obtain ⟨i, hgi, hval⟩ := renumberFn_of_mem hn
    have hilt : i < (firstDedup (citationsFound answer)).length := lt_of_get?_some hgi
    refine ⟨{ mkCitationOf docs ((firstDedup (citationsFound answer)).getD i 0) with
      source_id := i + 1 }, ?_, ?_⟩
    · rw [hval]
      have h1 : 1 + i - 1 = i := by omega
      rw [h1]
      show ((List.range (firstDedup (citationsFound answer)).length).map _).get? i = _
      rw [List.get?_eq_getElem?, List.getElem?_map, List.getElem?_range hilt]
      rfl
    · show i + 1 = renumberFn (citationsFound answer) n
      omega
  · intro i hi
    have hilt : i < (firstDedup (citationsFound answer)).length := by
      simpa using hi
    have hget : (firstDedup (citationsFound answer)).get? i =
        some ((firstDedup (citationsFound answer)).getD i 0) := by
      rw [List.getD_eq_getElem?_getD, List.get?_eq_getElem?, List.getElem?_eq_getElem hilt]
      rfl
    have hkeyf : (firstDedup (citationsFound answer)).getD i 0 ∈ citationsFound answer :=
      (mem_firstDedup _ _).mp (List.get?_mem hget)
    have hlk : (buildMap (citationsFound answer)).lookup
        ((firstDedup (citationsFound answer)).getD i 0) = some (1 + i) :=
      buildMap_lookup.mpr ⟨i, hget, rfl⟩
    have hrf : renumberFn (citationsFound answer)
        ((firstDedup (citationsFound answer)).getD i 0) = 1 + i := by
      rw [renumberFn, hlk, jsOr_some_pos (by omega)]
    show (i + 1) ∈ citationsFound (replaceFrom (renumberFn (citationsFound answer)) none answer)
    rw [citationsFound_replace]
    exact List.mem_map.mpr ⟨_, hkeyf, by rw [hrf]; omega⟩
  · intro i c hc
    rw [show ((⟨_, (List.range (firstDedup (citationsFound answer)).length).map
        (fun j => { mkCitationOf docs ((firstDedup (citationsFound answer)).getD j 0) with
          source_id := j + 1 }), _⟩ : QueryResult)).citations =
      (List.range (firstDedup (citationsFound answer)).length).map
        (fun j => { mkCitationOf docs ((firstDedup (citationsFound answer)).getD j 0) with
          source_id := j + 1 }) from rfl] at hc
    rw [List.get?_eq_getElem?, List.getElem?_map] at hc
    cases hri : (List.range (firstDedup (citationsFound answer)).length)[i]? with
    | none => rw [hri] at hc; exact Option.noConfusion hc
    | some j =>
      rw [hri] at hc
      have hilt : i < (firstDedup (citationsFound answer)).length := by
        have hr' : (List.range (firstDedup (citationsFound answer)).length).get? i = some j := by
          rw [List.get?_eq_getElem?, hri]
        have := lt_of_get?_some hr'
        simpa using this
      rw [List.getElem?_range hilt] at hri
      have hji : j = i := (Option.some.inj hri).symm
      subst hji
      have hgc : some ({ mkCitationOf docs ((firstDedup (citationsFound answer)).getD j 0) with
          source_id := j + 1 } : Citation) = some c := hc
      rw [← Option.some.inj hgc]

/-- C1 witness: the text x [2][1][2] against two retrieved documents. -/
theorem c1_citation_closure_witness :
    (∀ n ∈ citationsFound ("x [2][1][2]".toList), 1 ≤ n ∧
      n ≤ ([⟨"a".toList, "am".toList, 1, 1⟩,
        ⟨"b".toList, "bm".toList, 0, 2⟩] : List RetrievedDoc).length) ∧
    (∃ qr : QueryResult,
      answerPipeline ("x [2][1][2]".toList)
        [⟨"a".toList, "am".toList, 1, 1⟩, ⟨"b".toList, "bm".toList, 0, 2⟩] = some qr ∧
      (∀ k ∈ citationsFound qr.answer,
        ∃ c, qr.citations.get? (k - 1) = some c ∧ c.source_id = k) ∧
      (∀ i, i < qr.citations.length → (i + 1) ∈ citationsFound qr.answer) ∧
      (∀ i c, qr.citations.get? i = some c → c.source_id = i + 1)) :=
  ⟨by decide, c1_citation_closure _ _ (by decide)⟩

/-- C4: retrieval scores every corpus embedding, sorts candidate indices by
descending similarity with the stable tie-break (lower index wins ties),
returns exactly min(topK, corpusSize) documents in non-increasing score
order, and assigns the dense sourceId sequence 1..len(result).  The sorted
candidate order is witnessed by a full index permutation of the corpus,
strictly ordered by score-then-index, whose topK prefix builds the
result. -/
theorem c4_retrieve_ranking (sim : List ℚ → List ℚ → ℚ) (q : List ℚ) (corpus : Corpus)
    (topK : Nat) (hlen : corpus.documents.length = corpus.embeddings.length) :
    (retrieveDocuments sim q corpus topK).length = min topK corpus.documents.length ∧
    (retrieveDocuments sim q corpus topK).Pairwise (fun a b => b.score ≤ a.score) ∧
    (retrieveDocuments sim q corpus topK).map (fun d => d.sourceId) =
      List.range' 1 (retrieveDocuments sim q corpus topK).length ∧
    ∃ full : List Nat,
      full.Perm (List.range corpus.embeddings.length) ∧
      full.Pairwise (fun i j =>
        (corpus.embeddings.map (sim q)).getD j 0 < (corpus.embeddings.map (sim q)).getD i 0 ∨
          ((corpus.embeddings.map (sim q)).getD i 0 = (corpus.embeddings.map (sim q)).getD j 0 ∧
            i < j)) ∧
      retrieveDocuments sim q corpus topK =
        buildRetrieved corpus.documents (corpus.embeddings.map (sim q)) 1 (full.take topK) := by
  set scores := corpus.embeddings.map (sim q) with hscores
  set full := (sortedCandidates scores).map Prod.fst with hfull
  have hr : retrieveDocuments sim q corpus topK =
      buildRetrieved corpus.documents scores 1 (full.take topK) := by
    rw [retrieveDocuments]
    congr 1
    exact List.map_take _ _ _
  have hsc_len : (sortedCandidates scores).length = scores.length := by
    rw [sortedCandidates, List.length_insertionSort, List.length_map, List.length_range]
  have hfull_len : full.length = corpus.embeddings.length := by
    rw [hfull, List.length_map, hsc_len, hscores, List.length_map]
  refine ⟨?_, ?_, ?_, full, ?_, ?_, hr⟩
  · rw [hr, buildRetrieved_length, List.length_take, hfull_len, hlen]
  · have hpw : (full.take topK).Pairwise (fun i j =>
        scores.getD j 0 < scores.getD i 0 ∨
          (scores.getD i 0 = scores.getD j 0 ∧ i < j)) :=
      List.Pairwise.sublist (List.take_sublist _ _) (sortedCandidates_fst_pairwise scores)
    have hdesc : (full.take topK).Pairwise
        (fun i j => scores.getD j 0 ≤ scores.getD i 0) := by
      refine hpw.imp ?_
      rintro i j (h | ⟨h, _⟩)
      · exact le_of_lt h
      · exact le_of_eq h.symm
    have hms : ((buildRetrieved corpus.documents scores 1 (full.take topK)).map
        (fun d => d.score)).Pairwise (fun x y => y ≤ x) := by
      rw [buildRetrieved_map_score]
      exact List.pairwise_map.mpr hdesc
    rw [hr]
    exact List.pairwise_map.mp hms
  · rw [hr, buildRetrieved_map_sourceId, buildRetrieved_length]
  · have hsl : scores.length = corpus.embeddings.length := by
      rw [hscores]
      exact List.length_map _ _
    rw [← hsl]
    exact sortedCandidates_perm scores
  · exact sortedCandidates_fst_pairwise scores

/-- C4 witness: a one-document corpus with the constant score function. -/
theorem c4_retrieve_ranking_witness :
    (([⟨[], []⟩] : List Doc).length = ([[]] : List (List ℚ)).length) ∧
    ((retrieveDocuments (fun _ _ => 0) [] ⟨[], [⟨[], []⟩], [[]]⟩ 3).length =
        min 3 ([⟨[], []⟩] : List Doc).length ∧
      (retrieveDocuments (fun _ _ => 0) [] ⟨[], [⟨[], []⟩], [[]]⟩ 3).Pairwise
        (fun a b => b.score ≤ a.score) ∧
      (retrieveDocuments (fun _ _ => 0) [] ⟨[], [⟨[], []⟩], [[]]⟩ 3).map
          (fun d => d.sourceId) =
        List.range' 1 (retrieveDocuments (fun _ _ => 0) [] ⟨[], [⟨[], []⟩], [[]]⟩ 3).length ∧
      ∃ full : List Nat,
        full.Perm (List.range ([[]] : List (List ℚ)).length) ∧
        full.Pairwise (fun i j =>
          (([[]] : List (List ℚ)).map (fun _ => (0 : ℚ))).getD j 0 <
              (([[]] : List (List ℚ)).map (fun _ => (0 : ℚ))).getD i 0 ∨
            ((([[]] : List (List ℚ)).map (fun _ => (0 : ℚ))).getD i 0 =
                (([[]] : List (List ℚ)).map (fun _ => (0 : ℚ))).getD j 0 ∧
              i < j)) ∧
        retrieveDocuments (fun _ _ => 0) [] ⟨[], [⟨[], []⟩], [[]]⟩ 3 =
          buildRetrieved [⟨[], []⟩] (([[]] : List (List ℚ)).map (fun _ => (0 : ℚ))) 1
            (full.take 3)) :=
  ⟨rfl, c4_retrieve_ranking (fun _ _ => 0) [] ⟨[], [⟨[], []⟩], [[]]⟩ 3 rfl⟩

/-- C5: on the raw generator output about flooding, over any retrieved set
of at least two documents, the final answer is the canonical text and the
citations are the document at positionId 2 (renumbered to 1) followed by
the document at positionId 1 (renumbered to 2). -/
theorem c5_end_to_end (docs : List RetrievedDoc) (h2 : 2 ≤ docs.length) :
    answerPipeline ("Flooding displaced residents [2][2][1].".toList) docs =
      some ⟨"Flooding displaced residents [1][1][2].".toList,
        [⟨1, (docs.getD 1 dfltDoc).content, (docs.getD 1 dfltDoc).metadata⟩,
         ⟨2, (docs.getD 0 dfltDoc).content, (docs.getD 0 dfltDoc).metadata⟩],
        "Flooding displaced residents [2][2][1].".toList⟩ := by
  have hf : citationsFound ("Flooding displaced residents [2][2][1].".toList) = [2, 2, 1] := by
    decide
  have hW : ∀ n ∈ citationsFound ("Flooding displaced residents [2][2][1].".toList),
      1 ≤ n ∧ n ≤ docs.length := by
    intro n hn
    rw [hf] at hn
    have h21 : n = 2 ∨ n = 1 := by simpa using hn
    rcases h21 with rfl | rfl
    · exact ⟨by omega, by omega⟩
    · exact ⟨by omega, by omega⟩
  rw [answerPipeline_inRange hW]
  rfl

/-- C5 witness: a concrete two-document retrieved set. -/
theorem c5_end_to_end_witness :
    (2 ≤ ([⟨"a".toList, "am".toList, 1, 1⟩,
      ⟨"b".toList, "bm".toList, 0, 2⟩] : List RetrievedDoc).length) ∧
    answerPipeline ("Flooding displaced residents [2][2][1].".toList)
        [⟨"a".toList, "am".toList, 1, 1⟩, ⟨"b".toList, "bm".toList, 0, 2⟩] =
      some ⟨"Flooding displaced residents [1][1][2].".toList,
        [⟨1, "b".toList, "bm".toList⟩, ⟨2, "a".toList, "am".toList⟩],
        "Flooding displaced residents [2][2][1].".toList⟩ :=
  ⟨by decide, c5_end_to_end
    [⟨"a".toList, "am".toList, 1, 1⟩, ⟨"b".toList, "bm".toList, 0, 2⟩] (by decide)⟩

/-- C6: when the query is empty (after trimming) or no event is selected,
handleCustomQuery fails with a validation error, calls no collaborator, and
leaves the cached state untouched. -/
theorem c6_validation_before_collaborators (C : Collaborators) (st : AppState)
    (apiKey query : List Char) (h : jsTrim query = [] ∨ st.currentEventId = none) :
    ∃ e : QueryError, handleCustomQuery C st apiKey query = ⟨st, [], none, .error e⟩ ∧
      e.isValidation = true := by
  by_cases hk : jsTrim apiKey = []
  · refine ⟨.missingApiKey, ?_, rfl⟩
    unfold handleCustomQuery
    rw [if_pos hk]
  · rcases h with hq | he
    · refine ⟨.emptyQuery, ?_, rfl⟩
      unfold handleCustomQuery
      rw [if_neg hk, if_pos hq]
    · by_cases hq : jsTrim query = []
      · refine ⟨.emptyQuery, ?_, rfl⟩
        unfold handleCustomQuery
        rw [if_neg hk, if_pos hq]
      · refine ⟨.noEventSelected, ?_, rfl⟩
        unfold handleCustomQuery
        rw [if_neg hk, if_neg hq, he]

/-- C6 witness: a blank query with no selected event, against inert
collaborators. -/
theorem c6_validation_before_collaborators_witness :
    (jsTrim ("  ".toList) = [] ∨ (⟨false, none, none⟩ : AppState).currentEventId = none) ∧
    ∃ e : QueryError,
      handleCustomQuery ⟨.ok (), fun _ => .error [], fun _ _ => 0, fun _ => [],
          fun _ _ => .ok []⟩ ⟨false, none, none⟩ ("key".toList) ("  ".toList) =
        ⟨⟨false, none, none⟩, [], none, .error e⟩ ∧
      e.isValidation = true :=
  ⟨Or.inl (by decide),
    c6_validation_before_collaborators _ ⟨false, none, none⟩ ("key".toList) ("  ".toList)
      (Or.inl (by decide))⟩

/-- C7 counterexample: when the event-data fetch fails, the selector
handler has already switched currentEventId to the new event but the
cached corpus of the previous event is retained, so the cache is not
invalidated on this event change (the per-query eventId guard is what
prevents its use). -/
theorem c7_failed_fetch_keeps_cache :
    (selectEventStep ⟨true, some ⟨"A".toList, [], []⟩, some ("A".toList)⟩ ("B".toList)
        false).embeddingsData = some ⟨"A".toList, [], []⟩ ∧
    (selectEventStep ⟨true, some ⟨"A".toList, [], []⟩, some ("A".toList)⟩ ("B".toList)
        false).currentEventId = some ("B".toList) ∧
    ("A".toList ≠ "B".toList) := by
  refine ⟨rfl, rfl, by decide⟩

/-- C7 (amended): over every sequence of event selections and queries, a
retrieval only ever reads a corpus whose eventId equals the currently
selected event id (never-stale-corpus safety); and on every successful
event change the cached corpus is invalidated while the current event id
switches to the new event.  On a failed event-data load the stale cache is
retained, but the per-query eventId guard keeps it from being used. -/
theorem c7_no_stale_corpus (C : Collaborators) (st₀ : AppState) (acts : List UIAction)
    (st : AppState) (d : List Char) :
    (∀ p ∈ (runUI C st₀ acts).2, p.1 = p.2) ∧
    ((selectEventStep st d true).embeddingsData = none ∧
      (selectEventStep st d true).currentEventId = some d) :=
  ⟨runUI_obs C acts st₀, rfl, rfl⟩

/-- C7 witness: select an event, then ask a question; the one retrieval
performed reads the corpus stamped with the selected event id. -/
theorem c7_no_stale_corpus_witness :
    (("E".toList, "E".toList) ∈
      (runUI ⟨.ok (), fun _ => .ok ⟨[⟨[], []⟩], [[]]⟩, fun _ _ => 0, fun _ => [],
          fun _ _ => .ok []⟩ ⟨false, none, none⟩
        [.select ("E".toList) true, .ask ("k".toList) ("q".toList)]).2) ∧
    ("E".toList, "E".toList).1 = ("E".toList, "E".toList).2 :=
  ⟨by decide,
    (c7_no_stale_corpus ⟨.ok (), fun _ => .ok ⟨[⟨[], []⟩], [[]]⟩, fun _ _ => 0, fun _ => [],
        fun _ _ => .ok []⟩ ⟨false, none, none⟩
      [.select ("E".toList) true, .ask ("k".toList) ("q".toList)] ⟨false, none, none⟩ []).1
      ("E".toList, "E".toList) (by decide)⟩

theorem foldl_place_origin {mapping : List (Nat × Nat)} :
    ∀ (cs : List Citation) (arr : JsArr) (j : Nat) (c : Citation),
      (cs.foldl (placeCitation mapping) arr).val j = some c →
      arr.val j = some c ∨ ∃ cit ∈ cs, mapping.lookup cit.source_id = some c.source_id ∧
        c.content = cit.content ∧ c.metadata = cit.metadata := by
  intro cs
  induction cs with
  | nil => intro arr j c h; exact Or.inl h
  | cons cit cs ih =>
    intro arr j c h
    rw [List.foldl_cons] at h
    rcases ih _ j c h with h' | ⟨cit', hmem, hrest⟩
    · rw [placeCitation_val] at h'
      by_cases hlk : mapping.lookup cit.source_id = some (j + 1)
      · rw [if_pos hlk] at h'
        have hc : c = { cit with source_id := j + 1 } := (Option.some.inj h').symm
        refine Or.inr ⟨cit, by simp, ?_, ?_, ?_⟩
        · rw [hc]
          exact hlk
        · rw [hc]
        · rw [hc]
      · rw [if_neg hlk] at h'
        exact Or.inl h'
    · exact Or.inr ⟨cit', by simp [hmem], hrest⟩

theorem foldl_place_slot_id {mapping : List (Nat × Nat)} :
    ∀ (cs : List Citation) (arr : JsArr),
      (∀ j c, arr.val j = some c → c.source_id = j + 1) →
      ∀ j c, (cs.foldl (placeCitation mapping) arr).val j = some c → c.source_id = j + 1 := by
  intro cs
  induction cs with
  | nil => intro arr h; exact h
  | cons cit cs ih =>
    intro arr h
    rw [List.foldl_cons]
    apply ih
    intro j c hc
    rw [placeCitation_val] at hc
    by_cases hlk : mapping.lookup cit.source_id = some (j + 1)
    · rw [if_pos hlk] at hc
      rw [← Option.some.inj hc]
    · rw [if_neg hlk] at hc
      exact h j c hc

theorem JsArr.toList_pairwise {arr : JsArr}
    (h : ∀ j c, arr.val j = some c → c.source_id = j + 1) :
    arr.toList.Pairwise (fun a b => a.source_id < b.source_id) := by
  rw [JsArr.toList]
  refine List.Pairwise.filterMap arr.val ?_ (List.pairwise_lt_range arr.size)
  intro a a' hlt b hb b' hb'
  have hb1 : arr.val a = some b := Option.mem_def.mp hb
  have hb2 : arr.val a' = some b' := Option.mem_def.mp hb'
  rw [h a b hb1, h a' b' hb2]
  omega

theorem JsArr.mem_toList {arr : JsArr} {c : Citation} (h : c ∈ arr.toList) :
    ∃ j, arr.val j = some c := by
  rw [JsArr.toList] at h
  obtain ⟨j, _, hval⟩ := List.mem_filterMap.mp h
  exact ⟨j, hval⟩

/-- C8: reorderCitations is total and lenient.  Every produced citation
comes from an input citation whose old number the map sends to the new
number carried by the output (so the array after the filter holds no
undefined slot); the output is strictly ordered by the mapped new numbers;
and a citation whose old number is not in the map is skipped without
error, leaving the result unchanged. -/
theorem c8_reorder_never_fails (citations : List Citation) (mapping : List (Nat × Nat)) :
    (∀ c ∈ reorderCitations citations mapping, ∃ cit ∈ citations,
      mapping.lookup cit.source_id = some c.source_id ∧
      c.content = cit.content ∧ c.metadata = cit.metadata) ∧
    (reorderCitations citations mapping).Pairwise (fun a b => a.source_id < b.source_id) ∧
    (∀ cit : Citation, mapping.lookup cit.source_id = none →
      reorderCitations (cit :: citations) mapping = reorderCitations citations mapping) := by
  refine ⟨?_, ?_, ?_⟩
  · intro c hc
    rw [reorderCitations] at hc
    obtain ⟨j, hval⟩ := JsArr.mem_toList hc
    rcases foldl_place_origin citations _ j c hval with h | h
    · exact Option.noConfusion h
    · exact h
  · rw [reorderCitations]
    exact JsArr.toList_pairwise
      (foldl_place_slot_id citations _ (fun j c h => Option.noConfusion h))
  · intro cit hlk
    rw [reorderCitations, reorderCitations, List.foldl_cons, placeCitation_lookup_none hlk]

/-- C8 witness: a citation whose old number 5 is absent from the map with
single key 9 is skipped without error. -/
theorem c8_reorder_never_fails_witness :
    (([(9, 1)] : List (Nat × Nat)).lookup 5 = none) ∧
    reorderCitations [⟨5, "c".toList, "cm".toList⟩] [(9, 1)] = reorderCitations [] [(9, 1)] :=
  ⟨by decide, (c8_reorder_never_fails [] [(9, 1)]).2.2 ⟨5, "c".toList, "cm".toList⟩ (by decide)⟩

end KGViz
